import Mathlib

/-!
Verification of the task-DAG orchestration core of `codex-agent-team`.

The definitions below are a shallow embedding of the Go sources:
  * `internal/task/types.go`   — task data model, DAG operations,
    cycle detection (`HasCycle` / `hasCycleLocked`) and Kahn's
    `TopologicalOrder`;
  * `internal/task/executor.go` — `NewExecutor`, the `Run` dispatch loop
    and `executeTask`;
  * `internal/worktree/manager.go` — `Merge` / `CommitChanges`;
  * `internal/agent/types.go`  — the auto-approval handler and the
    sequential merge driver;
  * `internal/codexrpc/*.go`   — the JSON-RPC client dispatch and drain
    logic.

Go maps keyed by task ID are modelled as lists of tasks iterated in list
order (one admissible Go map iteration order); map lookups become
`List.find?` on the ID.  Theorems that depend on the map representation
carry a `Nodup` hypothesis on the stored IDs, which the Go `AddTask`
guard enforces.  Recursions that Go performs on mutable state are given
explicit fuel; the fuel is chosen strictly larger than any possible
recursion depth and lemmas below discharge the out-of-fuel branches.
-/

namespace Spec2Proof

/-- `TaskStatus` from `types.go`. -/
inductive TaskStatus where
  | pending
  | ready
  | running
  | completed
  | failed
  | cancelled
deriving DecidableEq, Repr

/-- `Task` from `types.go` (second revision, with commit-chaining fields).
Timestamps are modelled as natural numbers. -/
structure Task where
  id : String
  title : String := ""
  description : String := ""
  status : TaskStatus := .pending
  dependsOn : List String := []
  agentID : String := ""
  worktreePath : String := ""
  branchName : String := ""
  baseCommit : String := ""
  resultCommit : String := ""
  mergedCommits : List String := []
  createdAt : Nat := 0
  startedAt : Option Nat := none
  completedAt : Option Nat := none
  errMsg : String := ""
  output : List String := []
deriving DecidableEq, Repr

/-- The `DAG.tasks` map, as its list of entries in iteration order. -/
abbrev DAG := List Task

/-- Map lookup `d.tasks[id]` (`Get` in `types.go`). -/
def findTask (d : DAG) (id : String) : Option Task :=
  d.find? (fun t => t.id == id)

/-- Status of the task stored under `id`, if any. -/
def statusOf (d : DAG) (id : String) : Option TaskStatus :=
  (findTask d id).map (·.status)

/-- The dependency check inside `ReadyTasks`: every ID in `deps` resolves
to a task with status `completed` (the Go loop breaks at the first
failure; `List.all` short-circuits identically). -/
def allDepsCompleted (d : DAG) (deps : List String) : Bool :=
  deps.all (fun depID =>
    match findTask d depID with
    | some depTask => depTask.status == .completed
    | none => false)

/-- `ReadyTasks` from `types.go`: pending tasks whose dependencies are all
completed; dependency-free pending tasks are included by the second
branch. -/
def readyTasks (d : DAG) : List Task :=
  d.filter (fun t =>
    if t.status != .pending then false
    else
      (allDepsCompleted d t.dependsOn && t.dependsOn.length > 0)
      || (t.dependsOn.length == 0 && t.status == .pending))

/-- `UpdateStatus`: write the status of the entry under `id`; a missing
ID leaves the map untouched. -/
def updateStatus (d : DAG) (id : String) (status : TaskStatus) : DAG :=
  d.map (fun t => if t.id == id then { t with status := status } else t)

/-- `SetTaskCompleted`: status `completed` plus completion timestamp
(`now` stands for `time.Now()`). -/
def setTaskCompleted (d : DAG) (taskID : String) (now : Nat) : DAG :=
  d.map (fun t =>
    if t.id == taskID then
      { t with status := .completed, completedAt := some now }
    else t)

/-- `SetTaskFailed`: status `failed` plus the error message. -/
def setTaskFailed (d : DAG) (taskID : String) (errMsg : String) : DAG :=
  d.map (fun t =>
    if t.id == taskID then { t with status := .failed, errMsg := errMsg }
    else t)

/-- `UpdateTaskResult`: record the result commit. -/
def updateTaskResult (d : DAG) (taskID : String) (commitSHA : String) : DAG :=
  d.map (fun t =>
    if t.id == taskID then { t with resultCommit := commitSHA } else t)

/-- `GetDependencyBranches`: branch names of the direct dependencies that
resolve and have a non-empty branch name. -/
def getDependencyBranches (d : DAG) (taskID : String) : List String :=
  match findTask d taskID with
  | none => []
  | some task =>
      task.dependsOn.filterMap (fun depID =>
        match findTask d depID with
        | some depTask =>
            if depTask.branchName != "" then some depTask.branchName else none
        | none => none)

/-- `AllCompleted`: every task is terminal. -/
def allCompleted (d : DAG) : Bool :=
  d.all (fun t =>
    t.status == .completed || t.status == .failed || t.status == .cancelled)

/-- `HasFailed`: some task has status `failed`. -/
def hasFailed (d : DAG) : Bool :=
  d.any (fun t => t.status == .failed)

/-- The specification-side readiness predicate: `t` is pending and every
dependency ID resolves to a completed task. -/
def ReadySpec (d : DAG) (t : Task) : Prop :=
  t.status = .pending ∧
    ∀ dep ∈ t.dependsOn, ∃ u ∈ d, u.id = dep ∧ u.status = .completed

/-- The `maxParallel` normalisation in `NewExecutor` (`executor.go`):
a non-positive bound is replaced by 1. -/
def newExecutorMaxParallel (maxParallel : Int) : Int :=
  if maxParallel ≤ 0 then 1 else maxParallel

/-- A minimal JSON value, standing in for `json.RawMessage`. -/
inductive Jx where
  | null
  | str (s : String)
  | num (n : Int)
  | obj (fields : List (String × Jx))

/-- `RPCError` from `protocol_types.go` (its optional `data` field is
never populated by the client and is omitted here). -/
structure RPCError where
  code : Int
  message : String
deriving DecidableEq, Repr

/-- A message written by `writeResponse` (`client_call.go`): either a
`Response{ID, Result}` or an `ErrorResponse{ID, Error}` line. -/
inductive WireResponse where
  | success (id : Jx) (result : Jx)
  | failure (id : Jx) (rpcErr : RPCError)

/-- `DecisionAccept` from `protocol_types.go`. -/
def decisionAccept : String := "accept"

/-- JSON marshalling of `CommandApprovalResponse{Decision: d}` /
`FileChangeApprovalResponse{Decision: d}` (both have the single tagged
field `decision`). -/
def marshalDecision (d : String) : Jx :=
  .obj [("decision", .str d)]

/-- `Manager.createApprovalHandler` (`internal/agent/types.go`): returns
the marshalled `accept` decision for the two approval methods and an
`unknown request method` error otherwise.  Go's `switch` is rendered as
an if-chain.  `agentID`, the request ID, and the params are unused, as in
the source. -/
def createApprovalHandler (agentID : String) :
    Jx → String → Jx → Except String Jx :=
  fun _ method _ =>
    if method = "command/approval" then .ok (marshalDecision decisionAccept)
    else if method = "fileChange/approval" then .ok (marshalDecision decisionAccept)
    else .error ("unknown request method: " ++ method)

/-- `Client.handleServerRequest` (`client_dispatch.go`): with no handler
installed reply `-32601`; otherwise run the handler and reply with its
result, or with a code `-1` error response carrying `err.Error()`. -/
def handleServerRequest
    (requestHandler : Option (Jx → String → Jx → Except String Jx))
    (id : Jx) (method : String) (params : Jx) : WireResponse :=
  match requestHandler with
  | none => .failure id ⟨-32601, "no handler registered"⟩
  | some h =>
      match h id method params with
      | .error e => .failure id ⟨-1, e⟩
      | .ok result => .success id result

/-- The record sent on a pending-call channel (`rpcResult` in
`protocol_turn.go`). -/
structure RpcResult where
  result : Option Jx
  rpcErr : Option RPCError

/-- The synthetic result `&rpcResult{Error: &RPCError{Code: -1, Message:
"client closed"}}` built by `readLoop` when the read fails. -/
def clientClosedResult : RpcResult :=
  { result := none, rpcErr := some ⟨-1, "client closed"⟩ }

/-- Client state relevant to draining: the `pendingCalls` map (each entry
carries its capacity-1 channel buffer) and the `done` flag (`done`
channel closed). -/
structure ClientState where
  pendingCalls : List (String × Option RpcResult)
  done : Bool

/-- The non-blocking send in `readLoop`'s drain: an empty capacity-1
channel receives the client-closed result; a full one drops it. -/
def drainSlot : Option RpcResult → Option RpcResult
  | none => some clientClosedResult
  | some r => some r

/-- `readLoop` termination (`client_dispatch.go`): on a read error every
pending slot receives the synthetic client-closed result via a
non-blocking send and is deleted from the map, and the deferred
`close(c.done)` closes the done channel.  The second component is the
post-drain buffer of each formerly pending channel. -/
def readLoopTerminate (st : ClientState) :
    ClientState × List (String × Option RpcResult) :=
  ({ pendingCalls := [], done := true },
   st.pendingCalls.map (fun p => (p.1, drainSlot p.2)))

/-- The final `select` of `Call` (`client_call.go`), given the call's
channel buffer and the done flag: a delivered error result yields the
`RPC error <code>: <message>` error, a delivered success yields the
result, an empty channel yields `client closed` once done is closed, and
otherwise the caller stays blocked (`none`). -/
def callAwait (buf : Option RpcResult) (done : Bool) :
    Option (Except String Jx) :=
  match buf with
  | some r =>
      match r.rpcErr with
      | some e =>
          some (.error ("RPC error " ++ toString e.code ++ ": " ++ e.message))
      | none => some (.ok (r.result.getD .null))
  | none => if done then some (.error "client closed") else none

/-- Abstract state of a git checkout: the current `HEAD` commit and the
conflict files of an in-progress (conflicted) merge, if any. -/
structure WsState where
  headCommit : String
  mergeInProgress : Option (List String)
deriving DecidableEq, Repr

/-- Outcome of running `git merge --no-ff <branch>` in a checkout: a
clean merge producing a commit, a textual conflict (git stops with the
merge left in progress and the conflicting paths in the index), or a
non-conflict failure. -/
inductive GitMergeOutcome where
  | clean (newCommit : String)
  | conflict (files : List String)
  | otherFailure (msg : String)
deriving DecidableEq, Repr

/-- Effect of `git merge --no-ff` on the checkout; the `Bool` is whether
the command exited with an error. On conflict git leaves the merge in
progress with the conflicting files recorded. -/
def gitMerge (st : WsState) : GitMergeOutcome → WsState × Bool
  | .clean c => ({ st with headCommit := c }, false)
  | .conflict files => ({ st with mergeInProgress := some files }, true)
  | .otherFailure _ => (st, true)

/-- Effect of `git merge --abort`: discards any in-progress merge. -/
def gitMergeAbort (st : WsState) : WsState :=
  { st with mergeInProgress := none }

/-- `Manager.Merge` (`manager.go`): run `git merge --no-ff -m ...`; on
any failure run `git merge --abort` and return the error; on success
return `git rev-parse HEAD`. -/
def managerMerge (st : WsState) (branch : String)
    (outcome : GitMergeOutcome) : WsState × Except String String :=
  let p := gitMerge st outcome
  if p.2 then
    (gitMergeAbort p.1, .error ("failed to merge branch " ++ branch))
  else
    (p.1, .ok p.1.headCommit)

/-- Modelled from the spec: `HasConflicts(workspacePath) → (bool,
[filePath])` is declared by the workspace-provider contract but its body
is not among the sources; per the spec it reports the conflicting files
of an in-progress merge in the checkout. -/
def hasConflicts (st : WsState) : Bool × List String :=
  match st.mergeInProgress with
  | some files => (true, files)
  | none => (false, [])

/-- Per-branch record produced by one iteration of
`mergeSequentialWithAgent`'s loop. -/
structure BranchMergeRecord where
  mergedOk : Bool
  resolvedByAgent : Bool
  failedBranch : Bool
  conflictsRecorded : List String
  agentInvoked : Bool
deriving DecidableEq, Repr

/-- One iteration of the branch loop in `mergeSequentialWithAgent`
(`internal/agent/types.go`): attempt the merge; on failure query
`HasConflicts`; with conflicts, hand the conflict files to the merger
agent (`resolveConflictsWithAgent`, abstracted by `agentResolves` — its
output contains `DONE` — and `resolveCommit` — the subsequent
`CommitChanges`); without conflicts record a plain failure and continue.
The model's `hasConflicts` cannot fail, so the Go `err != nil` arm after
`HasConflicts` is unreachable and omitted. -/
def sequentialBranchStep (st : WsState) (branch : String)
    (outcome : GitMergeOutcome) (agentResolves : Bool)
    (resolveCommit : Except String String) : WsState × BranchMergeRecord :=
  match managerMerge st branch outcome with
  | (st1, .ok _) =>
      (st1, { mergedOk := true, resolvedByAgent := false, failedBranch := false,
              conflictsRecorded := [], agentInvoked := false })
  | (st1, .error _) =>
      match hasConflicts st1 with
      | (true, files) =>
          if files = [] then
            -- resolveConflictsWithAgent errors out before contacting the
            -- agent ("no conflict files to resolve"); abort and fail.
            (gitMergeAbort st1,
             { mergedOk := false, resolvedByAgent := false, failedBranch := true,
               conflictsRecorded := files, agentInvoked := false })
          else if agentResolves then
            match resolveCommit with
            | .ok sha =>
                ({ headCommit := sha, mergeInProgress := none },
                 { mergedOk := true, resolvedByAgent := true, failedBranch := false,
                   conflictsRecorded := [], agentInvoked := true })
            | .error _ =>
                (gitMergeAbort st1,
                 { mergedOk := false, resolvedByAgent := false, failedBranch := true,
                   conflictsRecorded := [], agentInvoked := true })
          else
            (gitMergeAbort st1,
             { mergedOk := false, resolvedByAgent := false, failedBranch := true,
               conflictsRecorded := files, agentInvoked := true })
      | (false, _) =>
          (st1, { mergedOk := false, resolvedByAgent := false, failedBranch := true,
                  conflictsRecorded := [], agentInvoked := false })

/-- A worktree record as returned by `Manager.Create`. -/
structure GitWorktree where
  path : String
  branch : String
  commit : String
deriving DecidableEq, Repr

/-- Results of the external operations invoked by `executeTask`
(`executor.go`), in invocation order: worktree creation, dependency
merges (per branch name), agent spawn, task send, wait for completion,
and `CommitChanges` (whose `.ok ""` means "nothing to commit"). -/
structure ExecEnv where
  createResult : Except String GitWorktree
  mergeResults : String → Except String String
  spawnResult : Except String Unit
  sendResult : Except String Unit
  waitResult : Except String Unit
  commitResult : Except String String

/-- A write to the fields of the task object shared between the executor
goroutine and the DAG map (Go mutates the task through its pointer, so
the write is visible in the DAG). -/
def setField (d : DAG) (id : String) (f : Task → Task) : DAG :=
  d.map (fun t => if t.id == id then f t else t)

/-- Step 3 of `executeTask`: merge each dependency branch into the
worktree, appending non-empty merge commits to `t.MergedCommits`; the
first failure aborts with its error. -/
def mergeDeps (env : ExecEnv) (id : String) :
    DAG → List String → Except String Unit × DAG
  | d, [] => (.ok (), d)
  | d, depBranch :: rest =>
      match env.mergeResults depBranch with
      | .error e =>
          (.error ("merge dependency branch " ++ depBranch ++ ": " ++ e), d)
      | .ok commitSHA =>
          let d' := if commitSHA = "" then d
            else setField d id
              (fun t => { t with mergedCommits := t.mergedCommits ++ [commitSHA] })
          mergeDeps env id d' rest

/-- `Executor.executeTask` (`executor.go`), with the external operations
abstracted by `env`. The task's field writes happen on the DAG entry
(pointer sharing); the returned DAG reflects all writes performed before
an early error return. Status changes are done by the caller. -/
def executeTask (env : ExecEnv) (d : DAG) (id : String) :
    Except String Unit × DAG :=
  let d1 := setField d id (fun t =>
    if t.branchName = "" then { t with branchName := "task-" ++ t.id } else t)
  match env.createResult with
  | .error e => (.error ("create worktree: " ++ e), d1)
  | .ok wt =>
      let d2 := setField d1 id
        (fun t => { t with worktreePath := wt.path, baseCommit := wt.commit })
      match mergeDeps env id d2 (getDependencyBranches d2 id) with
      | (.error e, d3) => (.error e, d3)
      | (.ok _, d3) =>
          match env.spawnResult with
          | .error e => (.error ("spawn agent: " ++ e), d3)
          | .ok _ =>
              let d4 := setField d3 id
                (fun t => { t with agentID := "agent-" ++ id })
              match env.sendResult with
              | .error e => (.error ("send task: " ++ e), d4)
              | .ok _ =>
                  match env.waitResult with
                  | .error e => (.error ("agent execution: " ++ e), d4)
                  | .ok _ =>
                      match env.commitResult with
                      | .error e => (.error ("commit changes: " ++ e), d4)
                      | .ok commitSHA =>
                          if commitSHA = "" then (.ok (), d4)
                          else
                            (.ok (),
                             updateTaskResult
                               (setField d4 id
                                 (fun t => { t with resultCommit := commitSHA }))
                               id commitSHA)

/-- The goroutine wrapper in `Executor.Run` around `executeTask`: a
failing body marks the task failed with the error text, a successful one
marks it completed. -/
def runTaskBody (env : ExecEnv) (d : DAG) (id : String) (now : Nat) : DAG :=
  match executeTask env d id with
  | (.error e, d') => setTaskFailed d' id e
  | (.ok _, d') => setTaskCompleted d' id now

/-- Concrete environment for the C7 witness: every step succeeds and the
agent's commit produces revision `sha1`. -/
def c7Env : ExecEnv :=
  { createResult := .ok ⟨"/wt/task-a", "task-a", "c0"⟩
    mergeResults := fun _ => .ok ""
    spawnResult := .ok ()
    sendResult := .ok ()
    waitResult := .ok ()
    commitResult := .ok "sha1" }

/-- Concrete one-task DAG for the C7 witness. -/
def c7Dag : DAG := [{ id := "a" }]

/-- Program counter of the `Run` main loop. -/
inductive MainPC where
  | loopHead
  | dispatching (batch : List String)
  | acquiring (taskID : String) (rest : List String)
  | draining
  | finished (failed : Bool)
deriving DecidableEq, Repr

/-- Program counter of one task-body goroutine: executing the body and
writing the terminal status, then between the status write and the
deferred `<-sem`, then released. -/
inductive BodyPC where
  | working
  | releasing
  | done
deriving DecidableEq, Repr

/-- One launched task body. -/
structure BodyState where
  taskID : String
  pc : BodyPC
deriving DecidableEq, Repr

/-- A configuration of `Run`: the shared DAG, the main loop's pc, and the
launched bodies. -/
structure ExecConfig where
  dag : DAG
  main : MainPC
  bodies : List BodyState
deriving DecidableEq, Repr

/-- Number of semaphore slots held: one per launched, not-yet-released
body. -/
def semHeld (c : ExecConfig) : Nat :=
  (c.bodies.filter (fun b => b.pc != .done)).length

/-- Number of tasks whose status in the DAG is `running`. -/
def countRunning (d : DAG) : Nat :=
  (d.filter (fun t => t.status == .running)).length

/-- Small-step semantics of `Run` with parallelism bound `mp`.  The task
body's outcome (`ok`, and the error text on failure) is nondeterministic,
covering every behaviour of `executeTask`. -/
inductive ExecStep (mp : Nat) : ExecConfig → ExecConfig → Prop where
  | loopExit (c : ExecConfig) (h : c.main = .loopHead)
      (hall : allCompleted c.dag = true) :
      ExecStep mp c { c with main := .draining }
  | loopFail (c : ExecConfig) (h : c.main = .loopHead)
      (hall : allCompleted c.dag = false) (hfail : hasFailed c.dag = true) :
      ExecStep mp c { c with main := .draining }
  | loopTick (c : ExecConfig) (h : c.main = .loopHead)
      (hall : allCompleted c.dag = false) (hfail : hasFailed c.dag = false)
      (hready : readyTasks c.dag = []) :
      ExecStep mp c c
  | loopDispatch (c : ExecConfig) (h : c.main = .loopHead)
      (hall : allCompleted c.dag = false) (hfail : hasFailed c.dag = false)
      (hready : readyTasks c.dag ≠ []) :
      ExecStep mp c
        { c with main := .dispatching ((readyTasks c.dag).map Task.id) }
  | mark (c : ExecConfig) (t : String) (rest : List String)
      (h : c.main = .dispatching (t :: rest)) :
      ExecStep mp c
        { c with dag := updateStatus c.dag t .running, main := .acquiring t rest }
  | acquire (c : ExecConfig) (t : String) (rest : List String)
      (h : c.main = .acquiring t rest) (hsem : semHeld c < mp) :
      ExecStep mp c
        { c with bodies := c.bodies ++ [⟨t, .working⟩], main := .dispatching rest }
  | batchDone (c : ExecConfig) (h : c.main = .dispatching []) :
      ExecStep mp c { c with main := .loopHead }
  | bodyComplete (c : ExecConfig) (pre post : List BodyState) (b : BodyState)
      (now : Nat) (ok : Bool) (msg : String)
      (h : c.bodies = pre ++ b :: post) (hpc : b.pc = .working) :
      ExecStep mp c
        { c with
          dag := if ok then setTaskCompleted c.dag b.taskID now
                 else setTaskFailed c.dag b.taskID msg,
          bodies := pre ++ ⟨b.taskID, .releasing⟩ :: post }
  | bodyRelease (c : ExecConfig) (pre post : List BodyState) (b : BodyState)
      (h : c.bodies = pre ++ b :: post) (hpc : b.pc = .releasing) :
      ExecStep mp c
        { c with bodies := pre ++ ⟨b.taskID, .done⟩ :: post }
  | drainFinish (c : ExecConfig) (h : c.main = .draining)
      (hdone : semHeld c = 0) :
      ExecStep mp c { c with main := .finished (hasFailed c.dag) }

/-- Reachability of `Run` configurations. -/
def ExecReach (mp : Nat) (c c' : ExecConfig) : Prop :=
  Relation.ReflTransGen (ExecStep mp) c c'

/-- The cyclic two-task DAG of scenario S3 (`a` and `b` depend on each
other, both pending), as `Execute` builds it. -/
def cycDag : DAG :=
  [{ id := "a", dependsOn := ["b"] }, { id := "b", dependsOn := ["a"] }]

/-- `Run`'s initial configuration on `cycDag`. -/
def cycConfig : ExecConfig := { dag := cycDag, main := .loopHead, bodies := [] }

/-- The DFS colour map of `hasCycleLocked`, split by colour: a node is
*gray* when on `grays`, *black* when on `blacks`, *white* otherwise.
`grays` is kept in stack order (most recent first), which is exactly the
recursion stack of the Go DFS; `blacks` is kept in finish order (most
recent first).  `flag` is the captured `hasCycle` variable. -/
structure DfsState where
  grays : List String
  blacks : List String
  flag : Bool
deriving DecidableEq, Repr

/-- Colour-map update at the end of `dfs`: `colors[nodeID] = colorBlack`
(the node leaves the recursion stack and is finished). -/
def blacken (nodeID : String) (s : DfsState) : DfsState :=
  { s with grays := s.grays.erase nodeID, blacks := nodeID :: s.blacks }

/-- All node IDs the DFS can ever touch: every task ID and every
dependency ID.  Its length bounds the recursion depth, since `dfs` only
recurses into white nodes. -/
def dfsUniverse (tasks : DAG) : List String :=
  tasks.map Task.id ++ tasks.flatMap Task.dependsOn

/-- The recursive `dfs` closure of `hasCycleLocked`, with explicit fuel
(`none` = fuel exhausted; `dfsFuel` below always suffices).  A gray
revisit sets the flag; a black node returns; a white node is pushed gray,
its dependencies are visited in order (the fold threads the colour
state), and it is blackened.  Structural recursion on the fuel keeps the
definition kernel-computable. -/
def dfsVisit (tasks : DAG) : Nat → String → DfsState → Option DfsState
  | 0, _, _ => none
  | fuel + 1, nodeID, s =>
      if s.flag then some s
      else if nodeID ∈ s.grays then some { s with flag := true }
      else if nodeID ∈ s.blacks then some s
      else
        let s1 : DfsState := { s with grays := nodeID :: s.grays }
        let deps := match findTask tasks nodeID with
          | some t => t.dependsOn
          | none => []
        match deps.foldl
            (fun acc dep =>
              match acc with
              | none => none
              | some s' => dfsVisit tasks fuel dep s')
            (some s1) with
        | none => none
        | some s2 => some (blacken nodeID s2)

/-- The dependency fold inside `dfsVisit`, exposed for reasoning: visit
each dependency in order, threading the colour state. -/
def dfsVisitDeps (tasks : DAG) (fuel : Nat) (deps : List String)
    (s : DfsState) : Option DfsState :=
  deps.foldl
    (fun acc dep =>
      match acc with
      | none => none
      | some s' => dfsVisit tasks fuel dep s')
    (some s)

/-- Fuel that always suffices: more than the number of distinct nodes the
DFS can colour. -/
def dfsFuel (tasks : DAG) : Nat :=
  (dfsUniverse tasks).length + 1

/-- The outer loop of `hasCycleLocked`: start a DFS from every node that
is still white. -/
def hasCycleLoop (tasks : DAG) (fuel : Nat) :
    List String → DfsState → Option DfsState
  | [], s => some s
  | id :: rest, s =>
      if id ∈ s.grays ∨ id ∈ s.blacks then hasCycleLoop tasks fuel rest s
      else
        match dfsVisit tasks fuel id s with
        | none => none
        | some s' => hasCycleLoop tasks fuel rest s'

/-- `HasCycle` / `hasCycleLocked` from `types.go`.  The `none` branch is
unreachable: `dfsFuel` exceeds the recursion depth (proved below). -/
def hasCycle (tasks : DAG) : Bool :=
  match hasCycleLoop tasks (dfsFuel tasks) (tasks.map Task.id) ⟨[], [], false⟩ with
  | some s => s.flag
  | none => true

/-- The in-degree map of `TopologicalOrder`: every task starts at 0 and
gains one per entry of its own `dependsOn` list (the source charges the
increment to the task itself). -/
def initInDegree (tasks : DAG) : List (String × Int) :=
  tasks.map (fun t => (t.id, (t.dependsOn.length : Int)))

/-- `inDegree[id]` lookup (IDs of tasks are always present). -/
def lookupDeg (inDeg : List (String × Int)) (id : String) : Int :=
  ((inDeg.find? (fun p => p.1 == id)).map Prod.snd).getD 0

/-- `inDegree[id] = v` map write. -/
def setDeg (inDeg : List (String × Int)) (id : String) (v : Int) :
    List (String × Int) :=
  inDeg.map (fun p => if p.1 == id then (p.1, v) else p)

/-- The initial queue: tasks whose in-degree is 0, in map iteration
order (`d.tasks[id]` is looked up per entry). -/
def initQueue (tasks : DAG) (inDeg : List (String × Int)) : List Task :=
  inDeg.filterMap (fun p => if p.2 == 0 then findTask tasks p.1 else none)

/-- The inner loop run after dequeuing `current`: for every task `t`
that lists `current.ID` among its dependencies (the Go `break` fires at
the first match), decrement its in-degree and enqueue it when the new
value is 0. -/
def kahnStep (tasks : DAG) (currentID : String)
    (inDeg : List (String × Int)) (queue : List Task) :
    List (String × Int) × List Task :=
  tasks.foldl
    (fun acc t =>
      if t.dependsOn.contains currentID then
        let v := lookupDeg acc.1 t.id - 1
        (setDeg acc.1 t.id v, if v == 0 then acc.2 ++ [t] else acc.2)
      else acc)
    (inDeg, queue)

/-- The dequeue loop of `TopologicalOrder`.  Fuel bounds the number of
dequeues; with the fuel chosen in `topologicalOrder` the queue provably
empties first. -/
def kahnLoop (tasks : DAG) :
    Nat → List Task → List (String × Int) → List Task → List Task
  | 0, _, _, result => result
  | _ + 1, [], _, result => result
  | fuel + 1, current :: queueRest, inDeg, result =>
      let p := kahnStep tasks current.id inDeg queueRest
      kahnLoop tasks fuel p.2 p.1 (result ++ [current])

/-- `TopologicalOrder` from `types.go`: reject cyclic graphs, otherwise
run Kahn's algorithm. -/
def topologicalOrder (tasks : DAG) : Except String (List Task) :=
  if hasCycle tasks then .error "cycle detected in DAG"
  else
    let inDeg := initInDegree tasks
    .ok (kahnLoop tasks (tasks.length + 1) (initQueue tasks inDeg) inDeg [])

/-- The dependency edge relation of the DAG: `depEdge tasks u v` holds
when the task with ID `u` lists `v` among its dependencies (the direction
the DFS walks). -/
def depEdge (tasks : DAG) (u v : String) : Prop :=
  ∃ t ∈ tasks, t.id = u ∧ v ∈ t.dependsOn

/-- The dependency graph contains a directed cycle. -/
def Cyclic (tasks : DAG) : Prop :=
  ∃ id, Relation.TransGen (depEdge tasks) id id

/-- Scenario for the C4 counterexample: two independent pending tasks,
`maxParallel = 1`. -/
def twoDag : DAG := [{ id := "t1" }, { id := "t2" }]

/-- `Run`'s initial configuration on `twoDag`. -/
def c4Init : ExecConfig := { dag := twoDag, main := .loopHead, bodies := [] }

/-- The reachable configuration violating the claimed bound: `t1`'s body
holds the only semaphore slot and is still running, while the main loop
has already marked `t2` running and is blocked acquiring a slot. -/
def c4Bad : ExecConfig :=
  { dag := updateStatus (updateStatus twoDag "t1" .running) "t2" .running,
    main := .acquiring "t2" [],
    bodies := [⟨"t1", .working⟩] }

/-- Busy (not yet released) bodies in a body list. -/
def countBusy (l : List BodyState) : Nat :=
  (l.filter (fun b => b.pc != .done)).length

/-- The task the main loop has marked running but not yet admitted, if
any. -/
def mainAcqList : MainPC → List String
  | .acquiring t _ => [t]
  | _ => []

/-- The inductive invariant of the `Run` transition system: the
semaphore is within bound; every working body's task is `running` and
every finished body's task is terminal; every `running` task is either
the single marked-but-not-admitted task or owned by a working body;
batch entries are pending, distinct and body-free. -/
structure ExecInv (mp : Nat) (c : ExecConfig) : Prop where
  ids_nodup : (c.dag.map Task.id).Nodup
  sem_le : semHeld c ≤ mp
  bodies_ids_nodup : (c.bodies.map BodyState.taskID).Nodup
  body_working : ∀ b ∈ c.bodies, b.pc = .working →
      statusOf c.dag b.taskID = some .running
  body_rest : ∀ b ∈ c.bodies, b.pc ≠ .working →
      statusOf c.dag b.taskID = some .completed ∨
        statusOf c.dag b.taskID = some .failed
  running_covered : ∀ q, statusOf c.dag q = some .running →
      (∃ rest, c.main = .acquiring q rest) ∨
      ∃ b ∈ c.bodies, b.taskID = q ∧ b.pc = .working
  dispatch_ok : ∀ batch, c.main = .dispatching batch →
      batch.Nodup ∧ ∀ q ∈ batch, statusOf c.dag q = some .pending ∧
        ∀ b ∈ c.bodies, b.taskID ≠ q
  acquiring_ok : ∀ t rest, c.main = .acquiring t rest →
      statusOf c.dag t = some .running ∧ (∀ b ∈ c.bodies, b.taskID ≠ t) ∧
      t ∉ rest ∧ rest.Nodup ∧
      ∀ q ∈ rest, statusOf c.dag q = some .pending ∧
        ∀ b ∈ c.bodies, b.taskID ≠ q

/-- The dependency list the DFS walks from a node (`d.tasks[nodeID]`
lookup inside `dfs`). -/
def depsOf (tasks : DAG) (nodeID : String) : List String :=
  match findTask tasks nodeID with
  | some t => t.dependsOn
  | none => []

/-- Number of still-white nodes of the universe. -/
def whites (tasks : DAG) (s : DfsState) : Nat :=
  ((dfsUniverse tasks).filter
    (fun id => decide (id ∉ s.grays) && decide (id ∉ s.blacks))).length

/-- The colour-state invariant of the DFS.  While the flag is unset the
gray stack is a dependency chain (each entry is a dependency of the one
below it), gray and black are disjoint and duplicate-free, and every
black node's dependencies finished before it (they sit later in the
finish-ordered `blacks`).  Once the flag is set the graph has a real
cycle. -/
structure DfsInv (tasks : DAG) (s : DfsState) : Prop where
  flag_cyc : s.flag = true → Cyclic tasks
  chain : s.flag = false →
    List.Chain' (fun a b => depEdge tasks b a) s.grays
  grays_nodup : s.flag = false → s.grays.Nodup
  disj : s.flag = false → ∀ id ∈ s.grays, id ∉ s.blacks
  blacks_nodup : s.flag = false → s.blacks.Nodup
  closed : s.flag = false → ∀ pre b post, s.blacks = pre ++ b :: post →
    ∀ d ∈ depsOf tasks b, d ∈ post

/-- The fold body of `kahnStep`, generalised over the task list walked. -/
def kahnFold (cid : String) (ts : List Task)
    (acc : List (String × Int) × List Task) :
    List (String × Int) × List Task :=
  ts.foldl
    (fun acc t =>
      if t.dependsOn.contains cid then
        let v := lookupDeg acc.1 t.id - 1
        (setDeg acc.1 t.id v, if v == 0 then acc.2 ++ [t] else acc.2)
      else acc)
    acc

/-- The dequeue-loop invariant of `TopologicalOrder`: stable keys, each
task's stored in-degree counts its dependencies not yet emitted, emitted
and queued tasks are distinct members of the graph, a task is emitted or
queued exactly when all its dependencies are emitted, and the emitted
order respects dependencies. -/
structure KahnInv (tasks : DAG) (inDeg : List (String × Int))
    (queue result : List Task) : Prop where
  keys : inDeg.map Prod.fst = tasks.map Task.id
  deg : ∀ t ∈ tasks, lookupDeg inDeg t.id =
    ((t.dependsOn.filter
      (fun d => !((result.map Task.id).contains d))).length : Int)
  res_mem : ∀ t ∈ result, t ∈ tasks
  que_mem : ∀ t ∈ queue, t ∈ tasks
  nodup : ((result ++ queue).map Task.id).Nodup
  closed : ∀ t ∈ tasks, (t ∈ result ∨ t ∈ queue) ↔
    ∀ d ∈ t.dependsOn, d ∈ result.map Task.id
  ordered : ∀ pre t post, result = pre ++ t :: post →
    ∀ d ∈ t.dependsOn, d ∈ pre.map Task.id

/-- Counterexample graph for the unamended C1: `b` lists the same
dependency twice, so the Kahn in-degree 2 is only decremented once (the
Go `break` fires on the first match) and `b` is never emitted. -/
def ceA : Task := { id := "a" }

def ceB : Task := { id := "b", dependsOn := ["a", "a"] }

def ceTasks : DAG := [ceA, ceB]

/-- Acyclic two-task witness graph. -/
def wA : Task := { id := "a" }

def wB : Task := { id := "b", dependsOn := ["a"] }

def wTasks : DAG := [wA, wB]

/-! ## Basic lemmas about the DAG operations -/

theorem findTask_eq_some_iff {d : DAG} {id : String} {t : Task} :
    findTask d id = some t ↔
      ∃ l1 l2, d = l1 ++ t :: l2 ∧ t.id = id ∧ ∀ u ∈ l1, u.id ≠ id := by
  unfold findTask
  rw [List.find?_eq_some]
  constructor
  · rintro ⟨hbeq, l1, l2, rfl, hprev⟩
    refine ⟨l1, l2, rfl, by simpa using hbeq, ?_⟩
    intro u hu
    have := hprev u hu
    simpa using this
  · rintro ⟨l1, l2, rfl, hid, hprev⟩
    exact ⟨by simpa using hid, l1, l2, rfl, fun u hu => by simpa using hprev u hu⟩

theorem findTask_mem {d : DAG} {id : String} {t : Task}
    (h : findTask d id = some t) : t ∈ d := by
  rcases findTask_eq_some_iff.mp h with ⟨l1, l2, rfl, _, _⟩
  simp

theorem findTask_id {d : DAG} {id : String} {t : Task}
    (h : findTask d id = some t) : t.id = id := by
  rcases findTask_eq_some_iff.mp h with ⟨_, _, _, hid, _⟩
  exact hid

/-- Under distinct stored IDs, a member task is exactly what lookup of
its ID returns (the Go map invariant). -/
theorem findTask_of_mem {d : DAG} (hn : (d.map Task.id).Nodup)
    {t : Task} (ht : t ∈ d) : findTask d t.id = some t := by
  induction d with
  | nil => cases ht
  | cons u rest ih =>
      rcases List.mem_cons.mp ht with rfl | ht'
      · simp [findTask, List.find?]
      · have hne : u.id ≠ t.id := by
          intro he
          have : t.id ∈ rest.map Task.id := List.mem_map_of_mem _ ht'
          rw [List.map_cons, List.nodup_cons] at hn
          exact hn.1 (he ▸ this)
        have hrest : (rest.map Task.id).Nodup := by
          rw [List.map_cons, List.nodup_cons] at hn
          exact hn.2
        rw [findTask, List.find?_cons_of_neg _ (by simp [hne])]
        exact ih hrest ht'

theorem findTask_eq_none_iff {d : DAG} {id : String} :
    findTask d id = none ↔ ∀ t ∈ d, t.id ≠ id := by
  unfold findTask
  rw [List.find?_eq_none]
  constructor
  · intro h t ht
    have := h t ht
    simpa using this
  · intro h t ht
    simpa using h t ht

/-- Status mutators leave every task untouched when the ID is absent. -/
theorem map_id_of_not_found {d : DAG} {id : String}
    (h : ∀ t ∈ d, t.id ≠ id) (f : Task → Task) :
    d.map (fun t => if t.id == id then f t else t) = d := by
  induction d with
  | nil => rfl
  | cons u rest ih =>
      have hu : u.id ≠ id := h u (by simp)
      have hrest : ∀ t ∈ rest, t.id ≠ id := fun t ht => h t (List.mem_cons_of_mem _ ht)
      simp only [List.map_cons]
      rw [if_neg (by simp [hu]), ih hrest]

theorem allDepsCompleted_iff (d : DAG) (deps : List String) :
    allDepsCompleted d deps = true ↔
      ∀ dep ∈ deps, ∃ u, findTask d dep = some u ∧ u.status = .completed := by
  unfold allDepsCompleted
  rw [List.all_eq_true]
  constructor
  · intro h dep hdep
    have := h dep hdep
    cases hft : findTask d dep with
    | none => rw [hft] at this; simp at this
    | some u =>
        rw [hft] at this
        exact ⟨u, rfl, by simpa using this⟩
  · intro h dep hdep
    rcases h dep hdep with ⟨u, hu, hs⟩
    rw [hu]
    simpa using hs

/-- **C2.** For every DAG with distinct task IDs and every task `t` of the
DAG: `t` is in the list returned by `ReadyTasks()` iff `t` is pending and
every ID in its `dependsOn` list resolves to a completed task of the DAG.
In particular a pending task with no dependencies is always in the list,
and a task with an unresolved dependency never is. -/
theorem C2_readyTasks_correct (d : DAG) (hn : (d.map Task.id).Nodup)
    (t : Task) (ht : t ∈ d) :
    t ∈ readyTasks d ↔ ReadySpec d t := by
  unfold readyTasks ReadySpec
  rw [List.mem_filter]
  constructor
  · rintro ⟨-, hcond⟩
    by_cases hp : t.status = TaskStatus.pending
    · refine ⟨hp, ?_⟩
      intro dep hdep
      have hlen : t.dependsOn.length > 0 := List.length_pos_of_mem hdep
      have hall : allDepsCompleted d t.dependsOn = true := by
        rw [if_neg (by simp [hp])] at hcond
        rcases Bool.or_eq_true_iff.mp hcond with h | h
        · exact (Bool.and_eq_true_iff.mp h).1
        · have hnil := (Bool.and_eq_true_iff.mp h).1
          simp at hnil
          simp [hnil] at hdep
      rcases (allDepsCompleted_iff d t.dependsOn).mp hall dep hdep with ⟨u, hu, hs⟩
      exact ⟨u, findTask_mem hu, findTask_id hu, hs⟩
    · rw [if_pos (by simp [hp])] at hcond
      exact absurd hcond (by simp)
  · rintro ⟨hp, hdeps⟩
    refine ⟨ht, ?_⟩
    rw [if_neg (by simp [hp])]
    have hall : allDepsCompleted d t.dependsOn = true := by
      rw [allDepsCompleted_iff]
      intro dep hdep
      rcases hdeps dep hdep with ⟨u, hu, hid, hs⟩
      exact ⟨u, hid ▸ findTask_of_mem hn hu, hs⟩
    rcases Nat.eq_zero_or_pos t.dependsOn.length with hz | hpos
    · apply Bool.or_eq_true_iff.mpr
      right
      simp [hz, hp]
    · apply Bool.or_eq_true_iff.mpr
      left
      simp [hall, hpos]

/-- Witness for C2 on a concrete two-task DAG. -/
theorem C2_readyTasks_correct_witness :
    (([⟨"a", "", "", .completed, [], "", "", "", "", "", [], 0, none, none, "", []⟩,
       ⟨"b", "", "", .pending, ["a"], "", "", "", "", "", [], 0, none, none, "", []⟩] :
        DAG).map Task.id).Nodup ∧
    (⟨"b", "", "", .pending, ["a"], "", "", "", "", "", [], 0, none, none, "", []⟩ : Task) ∈
      ([⟨"a", "", "", .completed, [], "", "", "", "", "", [], 0, none, none, "", []⟩,
        ⟨"b", "", "", .pending, ["a"], "", "", "", "", "", [], 0, none, none, "", []⟩] : DAG) ∧
    ((⟨"b", "", "", .pending, ["a"], "", "", "", "", "", [], 0, none, none, "", []⟩ : Task) ∈
        readyTasks
          [⟨"a", "", "", .completed, [], "", "", "", "", "", [], 0, none, none, "", []⟩,
           ⟨"b", "", "", .pending, ["a"], "", "", "", "", "", [], 0, none, none, "", []⟩] ↔
      ReadySpec
        [⟨"a", "", "", .completed, [], "", "", "", "", "", [], 0, none, none, "", []⟩,
         ⟨"b", "", "", .pending, ["a"], "", "", "", "", "", [], 0, none, none, "", []⟩]
        ⟨"b", "", "", .pending, ["a"], "", "", "", "", "", [], 0, none, none, "", []⟩) :=
  ⟨by decide, by decide,
    C2_readyTasks_correct _ (by decide) _ (by decide)⟩

/-- **C9.** `NewExecutor` clamps every non-positive `maxParallel` to 1, so
the dispatch semaphore always has positive capacity; bounds `≥ 1` are
kept as given. -/
theorem C9_newExecutor_clamps (mp : Int) :
    (mp ≤ 0 → newExecutorMaxParallel mp = 1) ∧
    (1 ≤ mp → newExecutorMaxParallel mp = mp) ∧
    1 ≤ newExecutorMaxParallel mp := by
  unfold newExecutorMaxParallel
  refine ⟨fun h => if_pos h, fun h => if_neg (by omega), ?_⟩
  split <;> omega

/-- Witness for C9 at `maxParallel = -2`. -/
theorem C9_newExecutor_clamps_witness :
    ((-2 : Int) ≤ 0 → newExecutorMaxParallel (-2) = 1) ∧
    (1 ≤ (-2 : Int) → newExecutorMaxParallel (-2) = (-2 : Int)) ∧
    1 ≤ newExecutorMaxParallel (-2) :=
  C9_newExecutor_clamps (-2)

/-- **C10.** `UpdateStatus`, `SetTaskCompleted`, `SetTaskFailed` and
`UpdateTaskResult` return no error signal (their Go signatures return
nothing), and when the given ID resolves to no task in the DAG each one
leaves every task unchanged. -/
theorem C10_mutators_noop_on_unknown_id (d : DAG) (id : String)
    (h : findTask d id = none) (status : TaskStatus) (now : Nat)
    (errMsg commitSHA : String) :
    updateStatus d id status = d ∧
    setTaskCompleted d id now = d ∧
    setTaskFailed d id errMsg = d ∧
    updateTaskResult d id commitSHA = d := by
  have habs : ∀ t ∈ d, t.id ≠ id := findTask_eq_none_iff.mp h
  exact ⟨map_id_of_not_found habs _, map_id_of_not_found habs _,
    map_id_of_not_found habs _, map_id_of_not_found habs _⟩

/-- Witness for C10: updating the unknown ID `"zz"` in a one-task DAG. -/
theorem C10_mutators_noop_on_unknown_id_witness :
    findTask [({ id := "a" } : Task)] "zz" = none ∧
    (updateStatus [({ id := "a" } : Task)] "zz" .running = [({ id := "a" } : Task)] ∧
     setTaskCompleted [({ id := "a" } : Task)] "zz" 7 = [({ id := "a" } : Task)] ∧
     setTaskFailed [({ id := "a" } : Task)] "zz" "boom" = [({ id := "a" } : Task)] ∧
     updateTaskResult [({ id := "a" } : Task)] "zz" "sha" = [({ id := "a" } : Task)]) :=
  ⟨by decide, C10_mutators_noop_on_unknown_id _ _ (by decide) _ _ _ _⟩

/-- **C6 (counterexample).** With the manager's approval handler
installed, an unknown server method (here `session/info`) is answered
with an error response of code `-1` carrying `unknown request method:
...` — not a JSON-RPC `-32601` method-not-found response as the claim
states. -/
theorem C6_unknown_method_not_32601 :
    handleServerRequest (some (createApprovalHandler "agent-x"))
        (.num 7) "session/info" .null
      = .failure (.num 7) ⟨-1, "unknown request method: session/info"⟩ ∧
    (-1 : Int) ≠ -32601 := by
  constructor
  · rfl
  · decide

/-- **C6 (amended).** With the manager's approval handler installed:
`command/approval` and `fileChange/approval` are answered with a success
response whose result is the JSON object `{"decision":"accept"}`; every
other method is answered with an error response of code `-1` and message
`unknown request method: <method>` (the `-32601` method-not-found code
is used only when no handler is installed at all). -/
theorem C6_approval_handler_replies (agentID : String) (id params : Jx)
    (method : String) :
    (method = "command/approval" ∨ method = "fileChange/approval" →
      handleServerRequest (some (createApprovalHandler agentID)) id method params
        = .success id (.obj [("decision", .str "accept")])) ∧
    (method ≠ "command/approval" → method ≠ "fileChange/approval" →
      handleServerRequest (some (createApprovalHandler agentID)) id method params
        = .failure id ⟨-1, "unknown request method: " ++ method⟩) ∧
    (∀ anyID anyMethod anyParams,
      handleServerRequest none anyID anyMethod anyParams
        = .failure anyID ⟨-32601, "no handler registered"⟩) := by
  refine ⟨?_, ?_, fun _ _ _ => rfl⟩
  · rintro (rfl | rfl) <;> rfl
  · intro h1 h2
    simp only [handleServerRequest, createApprovalHandler, if_neg h1, if_neg h2]

/-- Witness for C6 at the `command/approval` method. -/
theorem C6_approval_handler_replies_witness :
    handleServerRequest (some (createApprovalHandler "agent-x"))
        (.num 3) "command/approval" .null
      = .success (.num 3) (.obj [("decision", .str "accept")]) :=
  (C6_approval_handler_replies "agent-x" (.num 3) .null "command/approval").1
    (Or.inl rfl)

/-- **C8.** Whenever the read loop terminates, the pending-calls map is
emptied and the done channel is closed; every outstanding call whose
channel was still empty receives the synthetic client-closed error, on
which `Call` returns `RPC error -1: client closed`; and after
termination no formerly pending caller can stay blocked. -/
theorem C8_readLoop_drains (st : ClientState) :
    ((readLoopTerminate st).1.pendingCalls = [] ∧
     (readLoopTerminate st).1.done = true) ∧
    (∀ p ∈ st.pendingCalls, p.2 = none →
      (p.1, some clientClosedResult) ∈ (readLoopTerminate st).2 ∧
      callAwait (some clientClosedResult) true
        = some (.error "RPC error -1: client closed")) ∧
    (∀ q ∈ (readLoopTerminate st).2, callAwait q.2 true ≠ none) := by
  refine ⟨⟨rfl, rfl⟩, ?_, ?_⟩
  · intro p hp hnone
    constructor
    · show (p.1, some clientClosedResult) ∈
        st.pendingCalls.map (fun q => (q.1, drainSlot q.2))
      have h1 : (p.1, drainSlot p.2) ∈
          st.pendingCalls.map (fun q => (q.1, drainSlot q.2)) :=
        List.mem_map_of_mem (fun q => (q.1, drainSlot q.2)) hp
      rwa [hnone] at h1
    · rfl
  · intro q hq
    simp only [readLoopTerminate, List.mem_map] at hq
    rcases hq with ⟨p, _, rfl⟩
    cases p.2 with
    | none => simp [drainSlot, callAwait, clientClosedResult]
    | some r =>
        cases hre : r.rpcErr <;> simp [drainSlot, callAwait, hre]

/-- Witness for C8 on a client with one outstanding call. -/
theorem C8_readLoop_drains_witness :
    ("call-1", some clientClosedResult) ∈
      (readLoopTerminate ⟨[("call-1", none)], false⟩).2 ∧
    callAwait (some clientClosedResult) true
      = some (.error "RPC error -1: client closed") :=
  (C8_readLoop_drains ⟨[("call-1", none)], false⟩).2.1
    ("call-1", none) (List.mem_singleton.mpr rfl) rfl

/-- **C5.** On a conflicting merge, `Manager.Merge` does return a
failure, but it runs `git merge --abort` before returning, so no merge
is left in progress: the immediately following `HasConflicts` reports no
conflicting files and the sequential driver records a plain failure
without ever invoking the merge agent — contradicting the claimed
contract that the merge is left in progress for agent resolution. -/
theorem C5_conflicting_merge_is_aborted (st : WsState) (branch : String)
    (files : List String) (agentResolves : Bool)
    (resolveCommit : Except String String) :
    (managerMerge st branch (.conflict files)).2
      = .error ("failed to merge branch " ++ branch) ∧
    (managerMerge st branch (.conflict files)).1.mergeInProgress = none ∧
    hasConflicts (managerMerge st branch (.conflict files)).1 = (false, []) ∧
    (sequentialBranchStep st branch (.conflict files) agentResolves
        resolveCommit).2
      = { mergedOk := false, resolvedByAgent := false, failedBranch := true,
          conflictsRecorded := [], agentInvoked := false } :=
  ⟨rfl, rfl, rfl, rfl⟩

/-- Concrete evaluation of C5 at the failing input: merging branch
`"task-b"` that conflicts on `"main.go"`. -/
theorem C5_conflicting_merge_is_aborted_eval :
    (managerMerge ⟨"head0", none⟩ "task-b" (.conflict ["main.go"])).1
      = ⟨"head0", none⟩ ∧
    hasConflicts (managerMerge ⟨"head0", none⟩ "task-b"
        (.conflict ["main.go"])).1 = (false, []) ∧
    (sequentialBranchStep ⟨"head0", none⟩ "task-b" (.conflict ["main.go"])
        true (.ok "resolved-sha")).2.agentInvoked = false := by
  refine ⟨rfl, rfl, rfl⟩

theorem findTask_setField (d : DAG) (id : String) (f : Task → Task)
    (hf : ∀ t, (f t).id = t.id) :
    findTask (setField d id f) id = (findTask d id).map f := by
  induction d with
  | nil => rfl
  | cons u rest ih =>
      by_cases hu : u.id = id
      · simp [setField, findTask, List.find?_cons, hf, hu]
      · have h1 : (u.id == id) = false := by simp [hu]
        have h2 : ((f u).id == id) = false := by simp [hf, hu]
        simp only [setField, List.map_cons, h1, Bool.false_eq_true, if_false,
          findTask, List.find?_cons, h2]
        exact ih

theorem setTaskCompleted_eq_setField (d : DAG) (id : String) (now : Nat) :
    setTaskCompleted d id now
      = setField d id
          (fun t => { t with status := .completed, completedAt := some now }) :=
  rfl

theorem setTaskFailed_eq_setField (d : DAG) (id : String) (e : String) :
    setTaskFailed d id e
      = setField d id (fun t => { t with status := .failed, errMsg := e }) :=
  rfl

theorem updateTaskResult_eq_setField (d : DAG) (id : String) (sha : String) :
    updateTaskResult d id sha
      = setField d id (fun t => { t with resultCommit := sha }) :=
  rfl

/-- `mergeDeps` succeeds when every merge succeeds, and it never touches
the task's status or result commit. -/
theorem mergeDeps_preserves (env : ExecEnv) (id : String)
    (hmg : ∀ b, ∃ s, env.mergeResults b = Except.ok s) :
    ∀ (bs : List String) (d : DAG) (t : Task), findTask d id = some t →
      ∃ d' t', mergeDeps env id d bs = (.ok (), d') ∧
        findTask d' id = some t' ∧ t'.status = t.status ∧
        t'.resultCommit = t.resultCommit := by
  intro bs
  induction bs with
  | nil => exact fun d t hft => ⟨d, t, rfl, hft, rfl, rfl⟩
  | cons b rest ih =>
      intro d t hft
      obtain ⟨s, hs⟩ := hmg b
      by_cases hsz : s = ""
      · obtain ⟨d', t', hmd, hft', hst', hrc'⟩ := ih d t hft
        exact ⟨d', t', by simp only [mergeDeps, hs, hsz, if_true]; exact hmd,
          hft', hst', hrc'⟩
      · have hstep := findTask_setField d id
            (fun u => { u with mergedCommits := u.mergedCommits ++ [s] })
            (fun _ => rfl)
        rw [hft] at hstep
        obtain ⟨d', t', hmd, hft', hst', hrc'⟩ := ih _ _ hstep
        refine ⟨d', t', ?_, hft', hst', hrc'⟩
        simp only [mergeDeps, hs, hsz, if_false]
        exact hmd

/-- **C7.** For a task whose body runs to the commit step (worktree
creation, dependency merges, agent spawn/send/wait all succeed) and whose
`resultCommit` starts empty: if `CommitChanges` returns the empty
revision the task still completes with `resultCommit` left empty; if it
returns a non-empty revision that revision is stored in the task's
`resultCommit` (and published through `UpdateTaskResult`, which writes
the same shared field); and after execution `resultCommit` is non-empty
exactly when the task completed and `CommitChanges` produced a non-empty
revision. -/
theorem C7_resultCommit_iff (env : ExecEnv) (d : DAG) (id : String)
    (t : Task) (now : Nat) (hf : findTask d id = some t)
    (hrc : t.resultCommit = "")
    (hcr : ∃ wt, env.createResult = Except.ok wt)
    (hmg : ∀ b, ∃ s, env.mergeResults b = Except.ok s)
    (hsp : env.spawnResult = Except.ok ())
    (hsd : env.sendResult = Except.ok ())
    (hwt : env.waitResult = Except.ok ()) :
    ∃ t', findTask (runTaskBody env d id now) id = some t' ∧
      (env.commitResult = Except.ok "" →
        t'.status = .completed ∧ t'.resultCommit = "") ∧
      (∀ sha, env.commitResult = Except.ok sha → sha ≠ "" →
        t'.status = .completed ∧ t'.resultCommit = sha) ∧
      (t'.resultCommit ≠ "" ↔
        t'.status = .completed ∧
          ∃ sha, env.commitResult = Except.ok sha ∧ sha ≠ "") := by
  obtain ⟨wt, hwtc⟩ := hcr
  have h1 := findTask_setField d id
      (fun t => if t.branchName = "" then
        { t with branchName := "task-" ++ t.id } else t)
      (fun u => by by_cases h : u.branchName = "" <;> simp [h])
  rw [hf, Option.map_some'] at h1
  have h2 := findTask_setField
      (setField d id (fun t => if t.branchName = "" then
        { t with branchName := "task-" ++ t.id } else t))
      id (fun t => { t with worktreePath := wt.path, baseCommit := wt.commit })
      (fun _ => rfl)
  rw [h1, Option.map_some'] at h2
  obtain ⟨d3, t3, hmd, hft3, hst3, hrc3⟩ :=
    mergeDeps_preserves env id hmg
      (getDependencyBranches
        (setField
          (setField d id (fun t => if t.branchName = "" then
            { t with branchName := "task-" ++ t.id } else t))
          id (fun t =>
            { t with worktreePath := wt.path, baseCommit := wt.commit })) id)
      _ _ h2
  have hst3' : t3.status = t.status := by
    rw [hst3]
    by_cases h : t.branchName = "" <;> simp [h]
  have hrc3' : t3.resultCommit = "" := by
    rw [hrc3]
    by_cases h : t.branchName = "" <;> simp [h, hrc]
  have h4 := findTask_setField d3 id
      (fun t => { t with agentID := "agent-" ++ id }) (fun _ => rfl)
  rw [hft3, Option.map_some'] at h4
  cases hcm : env.commitResult with
  | error e =>
      have hex : executeTask env d id
          = (.error ("commit changes: " ++ e),
             setField d3 id (fun t => { t with agentID := "agent-" ++ id })) := by
        simp only [executeTask, hwtc, hmd, hsp, hsd, hwt, hcm]
      refine ⟨{ t3 with
          agentID := "agent-" ++ id
          status := .failed
          errMsg := "commit changes: " ++ e }, ?_, ?_, ?_, ?_⟩
      · simp only [runTaskBody, hex, setTaskFailed_eq_setField]
        have h5 := findTask_setField
            (setField d3 id (fun t => { t with agentID := "agent-" ++ id })) id
            (fun t => { t with status := TaskStatus.failed, errMsg := "commit changes: " ++ e })
            (fun _ => rfl)
        rw [h4, Option.map_some'] at h5
        exact h5
      · intro h; cases h
      · intro sha h; cases h
      · simp [hrc3']
  | ok sha =>
      by_cases hsz : sha = ""
      · subst hsz
        have hex : executeTask env d id
            = (.ok (),
               setField d3 id (fun t => { t with agentID := "agent-" ++ id })) := by
          simp only [executeTask, hwtc, hmd, hsp, hsd, hwt, hcm]
          simp
        refine ⟨{ t3 with
            agentID := "agent-" ++ id
            status := .completed
            completedAt := some now }, ?_, ?_, ?_, ?_⟩
        · simp only [runTaskBody, hex, setTaskCompleted_eq_setField]
          have h5 := findTask_setField
              (setField d3 id (fun t => { t with agentID := "agent-" ++ id })) id
              (fun t => { t with status := TaskStatus.completed, completedAt := some now })
              (fun _ => rfl)
          rw [h4, Option.map_some'] at h5
          exact h5
        · intro _; exact ⟨rfl, hrc3'⟩
        · intro sha' h hne
          cases h
          exact absurd rfl hne
        · constructor
          · intro h; exact absurd hrc3' h
          · rintro ⟨-, sha', h, hne⟩
            cases h
            exact absurd rfl hne
      · have hex : executeTask env d id
            = (.ok (),
               updateTaskResult
                 (setField
                   (setField d3 id (fun t => { t with agentID := "agent-" ++ id }))
                   id (fun t => { t with resultCommit := sha }))
                 id sha) := by
          simp only [executeTask, hwtc, hmd, hsp, hsd, hwt, hcm, if_neg hsz]
        refine ⟨{ t3 with
            agentID := "agent-" ++ id
            resultCommit := sha
            status := .completed
            completedAt := some now }, ?_, ?_, ?_, ?_⟩
        · simp only [runTaskBody, hex, setTaskCompleted_eq_setField,
            updateTaskResult_eq_setField]
          have h5 := findTask_setField
              (setField d3 id (fun t => { t with agentID := "agent-" ++ id })) id
              (fun t => { t with resultCommit := sha })
              (fun _ => rfl)
          rw [h4, Option.map_some'] at h5
          have h6 := findTask_setField
              (setField
                (setField d3 id (fun t => { t with agentID := "agent-" ++ id }))
                id (fun t => { t with resultCommit := sha })) id
              (fun t => { t with resultCommit := sha })
              (fun _ => rfl)
          rw [h5, Option.map_some'] at h6
          have h7 := findTask_setField
              (setField
                (setField
                  (setField d3 id (fun t => { t with agentID := "agent-" ++ id }))
                  id (fun t => { t with resultCommit := sha }))
                id (fun t => { t with resultCommit := sha })) id
              (fun t => { t with status := TaskStatus.completed, completedAt := some now })
              (fun _ => rfl)
          rw [h6, Option.map_some'] at h7
          exact h7
        · intro h
          cases h
          exact absurd rfl hsz
        · intro sha' h _
          cases h
          exact ⟨rfl, rfl⟩
        · constructor
          · intro _; exact ⟨rfl, sha, rfl, hsz⟩
          · intro _; exact hsz

/-- Witness for C7 on `c7Env` and `c7Dag`. -/
theorem C7_resultCommit_iff_witness :
    ∃ t', findTask (runTaskBody c7Env c7Dag "a" 5) "a" = some t' ∧
      (c7Env.commitResult = Except.ok "" →
        t'.status = .completed ∧ t'.resultCommit = "") ∧
      (∀ sha, c7Env.commitResult = Except.ok sha → sha ≠ "" →
        t'.status = .completed ∧ t'.resultCommit = sha) ∧
      (t'.resultCommit ≠ "" ↔
        t'.status = .completed ∧
          ∃ sha, c7Env.commitResult = Except.ok sha ∧ sha ≠ "") :=
  C7_resultCommit_iff c7Env c7Dag "a" { id := "a" } 5 rfl rfl
    ⟨⟨"/wt/task-a", "task-a", "c0"⟩, rfl⟩ (fun _ => ⟨"", rfl⟩) rfl rfl rfl

/-- From the cyclic initial configuration every step is the idle tick:
`AllCompleted` and `HasFailed` are false and the ready set is empty, so
the loop can only wait out the 100 ms timer. -/
theorem cycConfig_step_fixed {c : ExecConfig} (h : ExecStep 3 cycConfig c) :
    c = cycConfig := by
  cases h with
  | loopExit h hall => exact absurd hall (by decide)
  | loopFail h hall hfail => exact absurd hfail (by decide)
  | loopTick h hall hfail hready => rfl
  | loopDispatch h hall hfail hready =>
      exact absurd (by decide : readyTasks cycConfig.dag = []) hready
  | mark t rest h => simp [cycConfig] at h
  | acquire t rest h hsem => simp [cycConfig] at h
  | batchDone h => simp [cycConfig] at h
  | bodyComplete pre post b now ok msg h hpc => simp [cycConfig] at h
  | bodyRelease pre post b h hpc => simp [cycConfig] at h
  | drainFinish h hdone => simp [cycConfig] at h

/-- **C3.** Scenario S3: the DAG `{a → b, b → a}` is cyclic (`HasCycle`
reports it), yet `Execute`/`Run` performs no cycle precondition check:
from the initial configuration the only reachable configuration is the
initial one — the loop ticks forever, never returns (so in particular
never returns an error), never marks any task running and never launches
any task body. -/
theorem C3_cyclic_dag_spins_forever :
    hasCycle cycDag = true ∧
    ∀ c, ExecReach 3 cycConfig c →
      c = cycConfig ∧ countRunning c.dag = 0 ∧ c.bodies = [] ∧
        ∀ failed, c.main ≠ .finished failed := by
  refine ⟨by decide, ?_⟩
  intro c h
  have hc : c = cycConfig := by
    induction h with
    | refl => rfl
    | tail h1 h2 ih =>
        subst ih
        exact cycConfig_step_fixed h2
  subst hc
  exact ⟨rfl, by decide, rfl, by decide⟩

/-- Witness for C3 at the initial configuration itself. -/
theorem C3_cyclic_dag_spins_forever_witness :
    cycConfig = cycConfig ∧ countRunning cycConfig.dag = 0 ∧
      cycConfig.bodies = [] ∧ ∀ failed, cycConfig.main ≠ .finished failed :=
  (C3_cyclic_dag_spins_forever.2 cycConfig Relation.ReflTransGen.refl)

/-- **C4 (counterexample).** With `maxParallel = 1` and two ready tasks,
`Run` marks each ready task running *before* acquiring a semaphore slot,
so a configuration with two `running` tasks is reachable: the bound
`countRunning ≤ maxParallel` claimed at every instant is violated. -/
theorem C4_bound_violated :
    ExecReach 1 c4Init c4Bad ∧ countRunning c4Bad.dag = 2 ∧
      1 < countRunning c4Bad.dag := by
  refine ⟨?_, by decide, by decide⟩
  refine Relation.ReflTransGen.head
    (ExecStep.loopDispatch c4Init rfl (by decide) (by decide) (by decide)) ?_
  refine Relation.ReflTransGen.head (ExecStep.mark _ "t1" ["t2"] rfl) ?_
  refine Relation.ReflTransGen.head (ExecStep.acquire _ "t1" ["t2"] rfl (by decide)) ?_
  exact Relation.ReflTransGen.single (ExecStep.mark _ "t2" [] rfl)

/-! ### Status bookkeeping lemmas for the executor invariant -/

theorem updateStatus_eq_setField (d : DAG) (id : String) (st : TaskStatus) :
    updateStatus d id st = setField d id (fun t => { t with status := st }) :=
  rfl

theorem findTask_map_preserve (d : DAG) (g : Task → Task)
    (hg : ∀ t, (g t).id = t.id) (q : String) :
    findTask (d.map g) q = (findTask d q).map g := by
  induction d with
  | nil => rfl
  | cons u rest ih =>
      simp only [List.map_cons, findTask, List.find?_cons, hg]
      by_cases hu : u.id = q
      · simp [hu]
      · have h1 : (u.id == q) = false := by simp [hu]
        simp only [h1]
        exact ih

theorem findTask_setField_ne (d : DAG) (id q : String) (f : Task → Task)
    (hf : ∀ t, (f t).id = t.id) (hne : q ≠ id) :
    findTask (setField d id f) q = findTask d q := by
  have hmap := findTask_map_preserve d
      (fun t => if t.id == id then f t else t)
      (fun t => by by_cases h : t.id = id <;> simp [h, hf]) q
  rw [setField] at *
  rw [hmap]
  cases hft : findTask d q with
  | none => rfl
  | some t =>
      have hid := findTask_id hft
      have hbe : (t.id == id) = false := by simp [hid, hne]
      simp only [Option.map_some', hbe, Bool.false_eq_true, if_false]

theorem mapId_setField (d : DAG) (id : String) (f : Task → Task)
    (hf : ∀ t, (f t).id = t.id) :
    (setField d id f).map Task.id = d.map Task.id := by
  induction d with
  | nil => rfl
  | cons u rest ih =>
      simp only [setField, List.map_cons] at *
      have hhead : (if (u.id == id) = true then f u else u).id = u.id := by
        by_cases hu : u.id = id <;> simp [hu, hf]
      rw [hhead, ih]

theorem statusOf_setField_self (d : DAG) (id : String) (f : Task → Task)
    (hf : ∀ t, (f t).id = t.id) (t : Task) (h : findTask d id = some t) :
    statusOf (setField d id f) id = some (f t).status := by
  have h2 := findTask_setField d id f hf
  rw [h, Option.map_some'] at h2
  rw [statusOf, h2, Option.map_some']

theorem statusOf_setField_ne (d : DAG) (id q : String) (f : Task → Task)
    (hf : ∀ t, (f t).id = t.id) (hne : q ≠ id) :
    statusOf (setField d id f) q = statusOf d q := by
  rw [statusOf, findTask_setField_ne d id q f hf hne, statusOf]

theorem statusOf_of_mem {d : DAG} (hn : (d.map Task.id).Nodup)
    {t : Task} (ht : t ∈ d) : statusOf d t.id = some t.status := by
  rw [statusOf, findTask_of_mem hn ht, Option.map_some']

theorem statusOf_isSome {d : DAG} {q : String} {st : TaskStatus}
    (h : statusOf d q = some st) : ∃ t, findTask d q = some t ∧ t.status = st := by
  rw [statusOf] at h
  cases hft : findTask d q with
  | none => rw [hft] at h; cases h
  | some t =>
      rw [hft, Option.map_some'] at h
      exact ⟨t, rfl, Option.some.inj h⟩

theorem mem_readyTasks {d : DAG} {t : Task} (h : t ∈ readyTasks d) :
    t ∈ d ∧ t.status = .pending := by
  rw [readyTasks, List.mem_filter] at h
  refine ⟨h.1, ?_⟩
  rcases h with ⟨-, hc⟩
  by_cases hp : t.status = .pending
  · exact hp
  · rw [if_pos (by simp [hp])] at hc
    cases hc

theorem readyTasks_ids_nodup {d : DAG} (hn : (d.map Task.id).Nodup) :
    ((readyTasks d).map Task.id).Nodup := by
  have hsub : List.Sublist (readyTasks d) d := List.filter_sublist d
  exact (hsub.map Task.id).nodup hn

theorem semHeld_eq_countBusy (c : ExecConfig) : semHeld c = countBusy c.bodies :=
  rfl

theorem countBusy_append (l1 l2 : List BodyState) :
    countBusy (l1 ++ l2) = countBusy l1 + countBusy l2 := by
  simp [countBusy, List.filter_append]

theorem countBusy_cons (b : BodyState) (l : List BodyState) :
    countBusy (b :: l)
      = (if b.pc = .done then 0 else 1) + countBusy l := by
  by_cases h : b.pc = .done
  · simp [countBusy, List.filter_cons, h]
  · simp [countBusy, List.filter_cons, h]
    omega

theorem statusOf_updateStatus_self (d : DAG) (id : String) (st : TaskStatus)
    {st0 : TaskStatus} (h : statusOf d id = some st0) :
    statusOf (updateStatus d id st) id = some st := by
  obtain ⟨t, hft, -⟩ := statusOf_isSome h
  rw [updateStatus_eq_setField,
    statusOf_setField_self d id (fun u => { u with status := st })
      (fun _ => rfl) t hft]

theorem statusOf_updateStatus_ne (d : DAG) (id : String) (st : TaskStatus)
    (q : String) (hne : q ≠ id) :
    statusOf (updateStatus d id st) q = statusOf d q := by
  rw [updateStatus_eq_setField,
    statusOf_setField_ne d id q (fun u => { u with status := st })
      (fun _ => rfl) hne]

theorem statusOf_setTaskCompleted_self (d : DAG) (id : String) (now : Nat)
    {st0 : TaskStatus} (h : statusOf d id = some st0) :
    statusOf (setTaskCompleted d id now) id = some .completed := by
  obtain ⟨t, hft, -⟩ := statusOf_isSome h
  rw [setTaskCompleted_eq_setField,
    statusOf_setField_self d id
      (fun u => { u with status := .completed, completedAt := some now })
      (fun _ => rfl) t hft]

theorem statusOf_setTaskCompleted_ne (d : DAG) (id : String) (now : Nat)
    (q : String) (hne : q ≠ id) :
    statusOf (setTaskCompleted d id now) q = statusOf d q := by
  rw [setTaskCompleted_eq_setField,
    statusOf_setField_ne d id q
      (fun u => { u with status := .completed, completedAt := some now })
      (fun _ => rfl) hne]

theorem statusOf_setTaskFailed_self (d : DAG) (id : String) (msg : String)
    {st0 : TaskStatus} (h : statusOf d id = some st0) :
    statusOf (setTaskFailed d id msg) id = some .failed := by
  obtain ⟨t, hft, -⟩ := statusOf_isSome h
  rw [setTaskFailed_eq_setField,
    statusOf_setField_self d id
      (fun u => { u with status := .failed, errMsg := msg })
      (fun _ => rfl) t hft]

theorem statusOf_setTaskFailed_ne (d : DAG) (id : String) (msg : String)
    (q : String) (hne : q ≠ id) :
    statusOf (setTaskFailed d id msg) q = statusOf d q := by
  rw [setTaskFailed_eq_setField,
    statusOf_setField_ne d id q
      (fun u => { u with status := .failed, errMsg := msg })
      (fun _ => rfl) hne]

theorem mapId_updateStatus (d : DAG) (id : String) (st : TaskStatus) :
    ((updateStatus d id st).map Task.id) = d.map Task.id := by
  rw [updateStatus_eq_setField]
  exact mapId_setField d id _ (fun _ => rfl)

theorem mapId_setTaskCompleted (d : DAG) (id : String) (now : Nat) :
    ((setTaskCompleted d id now).map Task.id) = d.map Task.id := by
  rw [setTaskCompleted_eq_setField]
  exact mapId_setField d id _ (fun _ => rfl)

theorem mapId_setTaskFailed (d : DAG) (id : String) (msg : String) :
    ((setTaskFailed d id msg).map Task.id) = d.map Task.id := by
  rw [setTaskFailed_eq_setField]
  exact mapId_setField d id _ (fun _ => rfl)

theorem filter_length_mono {α : Type} (l : List α) (p q : α → Bool)
    (h : ∀ a, p a = true → q a = true) :
    (l.filter p).length ≤ (l.filter q).length := by
  induction l with
  | nil => simp
  | cons a rest ih =>
      by_cases hp : p a = true
      · have hq := h a hp
        simp only [List.filter_cons, hp, hq, if_true, List.length_cons]
        omega
      · by_cases hq : q a = true <;>
          simp only [List.filter_cons, hp, hq, Bool.false_eq_true, if_false,
            if_true, List.length_cons] <;> omega

/-- The invariant holds initially when no task is running yet. -/
theorem ExecInv.init (mp : Nat) (d : DAG) (hn : (d.map Task.id).Nodup)
    (hnr : ∀ t ∈ d, t.status ≠ .running) :
    ExecInv mp { dag := d, main := .loopHead, bodies := [] } := by
  refine ⟨hn, by simp [semHeld], by simp, by simp, by simp, ?_, ?_, ?_⟩
  · intro q hq
    obtain ⟨t, hft, hst⟩ := statusOf_isSome hq
    exact absurd hst (hnr t (findTask_mem hft))
  · intro batch hb
    cases hb
  · intro t rest hb
    cases hb

theorem nodup_middle_ids {pre post : List BodyState} {b : BodyState}
    (h : ((pre ++ b :: post).map BodyState.taskID).Nodup) :
    (∀ b2 ∈ pre, b2.taskID ≠ b.taskID) ∧
      (∀ b2 ∈ post, b2.taskID ≠ b.taskID) := by
  rw [List.map_append, List.map_cons, List.nodup_append] at h
  obtain ⟨h1, h2, hdisj⟩ := h
  constructor
  · intro b2 hb2 he
    exact hdisj (List.mem_map_of_mem _ hb2)
      (by rw [he]; exact List.mem_cons_self _ _)
  · intro b2 hb2 he
    have := (List.nodup_cons.mp h2).1
    exact this (he ▸ List.mem_map_of_mem _ hb2)

theorem mapId_middle (pre post : List BodyState) (b : BodyState)
    (pc' : BodyPC) :
    ((pre ++ ⟨b.taskID, pc'⟩ :: post).map BodyState.taskID)
      = ((pre ++ b :: post).map BodyState.taskID) := by
  simp

/-- One step of `Run` preserves the invariant. -/
theorem ExecInv.preserve {mp : Nat} {c c' : ExecConfig}
    (inv : ExecInv mp c) (hstep : ExecStep mp c c') : ExecInv mp c' := by
  cases hstep with
  | loopExit h hall =>
      refine ⟨inv.ids_nodup, inv.sem_le, inv.bodies_ids_nodup,
        inv.body_working, inv.body_rest, ?_, ?_, ?_⟩
      · intro q hq
        rcases inv.running_covered q hq with ⟨rest, hm⟩ | hbody
        · rw [h] at hm; simp at hm
        · exact Or.inr hbody
      · intro batch hb; simp at hb
      · intro t rest hb; simp at hb
  | loopFail h hall hfail =>
      refine ⟨inv.ids_nodup, inv.sem_le, inv.bodies_ids_nodup,
        inv.body_working, inv.body_rest, ?_, ?_, ?_⟩
      · intro q hq
        rcases inv.running_covered q hq with ⟨rest, hm⟩ | hbody
        · rw [h] at hm; simp at hm
        · exact Or.inr hbody
      · intro batch hb; simp at hb
      · intro t rest hb; simp at hb
  | loopTick h hall hfail hready => exact inv
  | loopDispatch h hall hfail hready =>
      refine ⟨inv.ids_nodup, inv.sem_le, inv.bodies_ids_nodup,
        inv.body_working, inv.body_rest, ?_, ?_, ?_⟩
      · intro q hq
        rcases inv.running_covered q hq with ⟨rest, hm⟩ | hbody
        · rw [h] at hm; simp at hm
        · exact Or.inr hbody
      · intro batch hb
        have hb2 : (readyTasks c.dag).map Task.id = batch := by simpa using hb
        subst hb2
        refine ⟨readyTasks_ids_nodup inv.ids_nodup, ?_⟩
        intro q hq
        rw [List.mem_map] at hq
        obtain ⟨t, htr, rfl⟩ := hq
        obtain ⟨htd, htp⟩ := mem_readyTasks htr
        have hpend : statusOf c.dag t.id = some .pending := by
          rw [statusOf_of_mem inv.ids_nodup htd, htp]
        refine ⟨hpend, ?_⟩
        intro b hbmem heq
        by_cases hbw : b.pc = .working
        · have hrun := inv.body_working b hbmem hbw
          rw [heq, hpend] at hrun
          simp at hrun
        · rcases inv.body_rest b hbmem hbw with hterm | hterm <;>
            · rw [heq, hpend] at hterm
              simp at hterm
      · intro t rest hb; simp at hb
  | mark t rest h =>
      obtain ⟨hnd, hall⟩ := inv.dispatch_ok _ h
      have hpend := (hall t (List.mem_cons_self _ _)).1
      have hdisjT := (hall t (List.mem_cons_self _ _)).2
      refine ⟨?_, inv.sem_le, inv.bodies_ids_nodup, ?_, ?_, ?_, ?_, ?_⟩
      · dsimp only
        rw [mapId_updateStatus]
        exact inv.ids_nodup
      · intro b hb hw
        dsimp only
        rw [statusOf_updateStatus_ne _ _ _ _ (hdisjT b hb)]
        exact inv.body_working b hb hw
      · intro b hb hnw
        dsimp only
        rw [statusOf_updateStatus_ne _ _ _ _ (hdisjT b hb)]
        exact inv.body_rest b hb hnw
      · intro q hq
        dsimp only at hq ⊢
        by_cases hqt : q = t
        · subst hqt
          exact Or.inl ⟨rest, rfl⟩
        · rw [statusOf_updateStatus_ne _ _ _ _ hqt] at hq
          rcases inv.running_covered q hq with ⟨rest0, hm⟩ | hbody
          · rw [h] at hm; simp at hm
          · exact Or.inr hbody
      · intro batch hb; simp at hb
      · intro t' rest' hb
        dsimp only at hb ⊢
        cases hb
        refine ⟨?_, hdisjT, (List.nodup_cons.mp hnd).1, (List.nodup_cons.mp hnd).2, ?_⟩
        · exact statusOf_updateStatus_self _ _ _ hpend
        · intro q hq
          have hqt : q ≠ t := fun he => (List.nodup_cons.mp hnd).1 (he ▸ hq)
          refine ⟨?_, (hall q (List.mem_cons_of_mem _ hq)).2⟩
          rw [statusOf_updateStatus_ne _ _ _ _ hqt]
          exact (hall q (List.mem_cons_of_mem _ hq)).1
  | acquire t rest h hsem =>
      obtain ⟨hrun, hdisj, hnotin, hndrest, hrest⟩ := inv.acquiring_ok t rest h
      have hnotmap : t ∉ c.bodies.map BodyState.taskID := by
        intro hmem
        rw [List.mem_map] at hmem
        obtain ⟨b, hb, hbe⟩ := hmem
        exact hdisj b hb hbe
      refine ⟨inv.ids_nodup, ?_, ?_, ?_, ?_, ?_, ?_, ?_⟩
      · show countBusy (c.bodies ++ [⟨t, BodyPC.working⟩]) ≤ mp
        have he : countBusy (c.bodies ++ [⟨t, BodyPC.working⟩])
            = countBusy c.bodies + 1 := by
          rw [countBusy_append, countBusy_cons]
          simp [countBusy]
        have hlt : countBusy c.bodies < mp := hsem
        omega
      · dsimp only
        rw [List.map_append, List.nodup_append]
        refine ⟨inv.bodies_ids_nodup, by simp, ?_⟩
        intro a ha
        simp only [List.map_cons, List.map_nil, List.mem_singleton]
        intro he
        exact hnotmap (he ▸ ha)
      · intro b2 hb2 hw
        dsimp only at hb2 ⊢
        rcases List.mem_append.mp hb2 with hold | hnew
        · exact inv.body_working b2 hold hw
        · have hb2e : b2 = ⟨t, BodyPC.working⟩ := by simpa using hnew
          subst hb2e
          exact hrun
      · intro b2 hb2 hnw
        dsimp only at hb2 ⊢
        rcases List.mem_append.mp hb2 with hold | hnew
        · exact inv.body_rest b2 hold hnw
        · have hb2e : b2 = ⟨t, BodyPC.working⟩ := by simpa using hnew
          subst hb2e
          exact absurd rfl hnw
      · intro q hq
        dsimp only at hq ⊢
        rcases inv.running_covered q hq with ⟨rest0, hm⟩ | ⟨b2, hb2, hbid, hbpc⟩
        · rw [h] at hm
          cases hm
          exact Or.inr ⟨⟨t, BodyPC.working⟩,
            List.mem_append_right _ (List.mem_singleton.mpr rfl), rfl, rfl⟩
        · exact Or.inr ⟨b2, List.mem_append_left _ hb2, hbid, hbpc⟩
      · intro batch hb
        dsimp only at hb
        cases hb
        refine ⟨hndrest, ?_⟩
        intro q hq
        refine ⟨(hrest q hq).1, ?_⟩
        intro b2 hb2
        dsimp only at hb2
        rcases List.mem_append.mp hb2 with hold | hnew
        · exact (hrest q hq).2 b2 hold
        · have hb2e : b2 = ⟨t, BodyPC.working⟩ := by simpa using hnew
          subst hb2e
          intro he
          rw [← he] at hq
          exact hnotin hq
      · intro t' rest' hb; simp at hb
  | batchDone h =>
      refine ⟨inv.ids_nodup, inv.sem_le, inv.bodies_ids_nodup,
        inv.body_working, inv.body_rest, ?_, ?_, ?_⟩
      · intro q hq
        rcases inv.running_covered q hq with ⟨rest, hm⟩ | hbody
        · rw [h] at hm; simp at hm
        · exact Or.inr hbody
      · intro batch hb; simp at hb
      · intro t rest hb; simp at hb
  | bodyComplete pre post b now ok msg h hpc =>
      have hbmem : b ∈ c.bodies := by
        rw [h]; exact List.mem_append_right _ (List.mem_cons_self _ _)
      have hbrun : statusOf c.dag b.taskID = some .running :=
        inv.body_working b hbmem hpc
      have hnod := inv.bodies_ids_nodup
      rw [h] at hnod
      obtain ⟨hpre, hpost⟩ := nodup_middle_ids hnod
      have hself : statusOf (if ok then setTaskCompleted c.dag b.taskID now
            else setTaskFailed c.dag b.taskID msg) b.taskID = some .completed ∨
          statusOf (if ok then setTaskCompleted c.dag b.taskID now
            else setTaskFailed c.dag b.taskID msg) b.taskID = some .failed := by
        cases ok
        · exact Or.inr (statusOf_setTaskFailed_self _ _ _ hbrun)
        · exact Or.inl (statusOf_setTaskCompleted_self _ _ _ hbrun)
      have hne2 : ∀ q, q ≠ b.taskID →
          statusOf (if ok then setTaskCompleted c.dag b.taskID now
            else setTaskFailed c.dag b.taskID msg) q = statusOf c.dag q := by
        intro q hq
        cases ok
        · exact statusOf_setTaskFailed_ne _ _ _ _ hq
        · exact statusOf_setTaskCompleted_ne _ _ _ _ hq
      have hmapid : ((if ok then setTaskCompleted c.dag b.taskID now
            else setTaskFailed c.dag b.taskID msg).map Task.id)
          = c.dag.map Task.id := by
        cases ok
        · exact mapId_setTaskFailed _ _ _
        · exact mapId_setTaskCompleted _ _ _
      have hmemnew : ∀ b2, b2 ∈ pre ∨ b2 ∈ post →
          b2 ∈ pre ++ (⟨b.taskID, BodyPC.releasing⟩ : BodyState) :: post := by
        rintro b2 (h2 | h2)
        · exact List.mem_append_left _ h2
        · exact List.mem_append_right _ (List.mem_cons_of_mem _ h2)
      have hmemold : ∀ b2, b2 ∈ pre ∨ b2 ∈ post → b2 ∈ c.bodies := by
        rintro b2 (h2 | h2) <;> rw [h]
        · exact List.mem_append_left _ h2
        · exact List.mem_append_right _ (List.mem_cons_of_mem _ h2)
      have hsplit : ∀ {b2 : BodyState},
          b2 ∈ pre ++ (⟨b.taskID, BodyPC.releasing⟩ : BodyState) :: post →
          b2 ∈ pre ∨ b2 = ⟨b.taskID, BodyPC.releasing⟩ ∨ b2 ∈ post := by
        intro b2 h2
        rcases List.mem_append.mp h2 with h3 | h3
        · exact Or.inl h3
        · rcases List.mem_cons.mp h3 with h4 | h4
          · exact Or.inr (Or.inl h4)
          · exact Or.inr (Or.inr h4)
      have hidne : ∀ b2, b2 ∈ pre ∨ b2 ∈ post → b2.taskID ≠ b.taskID := by
        rintro b2 (h2 | h2)
        · exact hpre b2 h2
        · exact hpost b2 h2
      refine ⟨?_, ?_, ?_, ?_, ?_, ?_, ?_, ?_⟩
      · dsimp only
        rw [hmapid]
        exact inv.ids_nodup
      · show countBusy (pre ++ (⟨b.taskID, BodyPC.releasing⟩ : BodyState) :: post) ≤ mp
        have he : countBusy (pre ++ (⟨b.taskID, BodyPC.releasing⟩ : BodyState) :: post)
            = countBusy (pre ++ b :: post) := by
          rw [countBusy_append, countBusy_cons, countBusy_append, countBusy_cons, hpc]
          simp
        rw [he, ← h]
        exact inv.sem_le
      · dsimp only
        rw [mapId_middle]
        rw [← h]
        exact inv.bodies_ids_nodup
      · intro b2 hb2 hw
        dsimp only at hb2 ⊢
        rcases hsplit hb2 with h2 | h2 | h2
        · rw [hne2 _ (hpre b2 h2)]
          exact inv.body_working b2 (hmemold b2 (Or.inl h2)) hw
        · subst h2
          simp at hw
        · rw [hne2 _ (hpost b2 h2)]
          exact inv.body_working b2 (hmemold b2 (Or.inr h2)) hw
      · intro b2 hb2 hnw
        dsimp only at hb2 ⊢
        rcases hsplit hb2 with h2 | h2 | h2
        · rw [hne2 _ (hpre b2 h2)]
          exact inv.body_rest b2 (hmemold b2 (Or.inl h2)) hnw
        · subst h2
          exact hself
        · rw [hne2 _ (hpost b2 h2)]
          exact inv.body_rest b2 (hmemold b2 (Or.inr h2)) hnw
      · intro q hq
        dsimp only at hq ⊢
        by_cases hqb : q = b.taskID
        · subst hqb
          rcases hself with h2 | h2 <;>
            · rw [h2] at hq
              simp at hq
        · rw [hne2 _ hqb] at hq
          rcases inv.running_covered q hq with ⟨rest0, hm⟩ | ⟨b2, hb2, hbid, hbpc⟩
          · exact Or.inl ⟨rest0, hm⟩
          · have hb2mem : b2 ∈ pre ∨ b2 ∈ post := by
              rw [h] at hb2
              rcases List.mem_append.mp hb2 with h3 | h3
              · exact Or.inl h3
              · rcases List.mem_cons.mp h3 with h4 | h4
                · subst h4
                  exact absurd hbid.symm hqb
                · exact Or.inr h4
            exact Or.inr ⟨b2, hmemnew b2 hb2mem, hbid, hbpc⟩
      · intro batch hb
        dsimp only at hb
        obtain ⟨hbnd, hball⟩ := inv.dispatch_ok batch hb
        refine ⟨hbnd, ?_⟩
        intro q hq
        have hqb : q ≠ b.taskID := fun he => (hball q hq).2 b hbmem he.symm
        refine ⟨?_, ?_⟩
        · dsimp only
          rw [hne2 _ hqb]
          exact (hball q hq).1
        · intro b2 hb2
          dsimp only at hb2
          rcases hsplit hb2 with h2 | h2 | h2
          · exact (hball q hq).2 b2 (hmemold b2 (Or.inl h2))
          · subst h2
            intro he
            exact hqb he.symm
          · exact (hball q hq).2 b2 (hmemold b2 (Or.inr h2))
      · intro t' rest' hb
        dsimp only at hb
        obtain ⟨hts, htb, htnotin, htnd, htrest⟩ := inv.acquiring_ok t' rest' hb
        have htne : t' ≠ b.taskID := fun he => htb b hbmem he.symm
        refine ⟨?_, ?_, htnotin, htnd, ?_⟩
        · dsimp only
          rw [hne2 _ htne]
          exact hts
        · intro b2 hb2
          dsimp only at hb2
          rcases hsplit hb2 with h2 | h2 | h2
          · exact htb b2 (hmemold b2 (Or.inl h2))
          · subst h2
            intro he
            exact htne he.symm
          · exact htb b2 (hmemold b2 (Or.inr h2))
        · intro q hq
          refine ⟨?_, ?_⟩
          · have hqb : q ≠ b.taskID := fun he => (htrest q hq).2 b hbmem he.symm
            dsimp only
            rw [hne2 _ hqb]
            exact (htrest q hq).1
          · intro b2 hb2
            dsimp only at hb2
            have hqb : q ≠ b.taskID := fun he => (htrest q hq).2 b hbmem he.symm
            rcases hsplit hb2 with h2 | h2 | h2
            · exact (htrest q hq).2 b2 (hmemold b2 (Or.inl h2))
            · subst h2
              intro he
              exact hqb he.symm
            · exact (htrest q hq).2 b2 (hmemold b2 (Or.inr h2))
  | bodyRelease pre post b h hpc =>
      have hbmem : b ∈ c.bodies := by
        rw [h]; exact List.mem_append_right _ (List.mem_cons_self _ _)
      have hnod := inv.bodies_ids_nodup
      rw [h] at hnod
      obtain ⟨hpre, hpost⟩ := nodup_middle_ids hnod
      have hmemold : ∀ b2, b2 ∈ pre ∨ b2 ∈ post → b2 ∈ c.bodies := by
        rintro b2 (h2 | h2) <;> rw [h]
        · exact List.mem_append_left _ h2
        · exact List.mem_append_right _ (List.mem_cons_of_mem _ h2)
      have hmemnew : ∀ b2, b2 ∈ pre ∨ b2 ∈ post →
          b2 ∈ pre ++ (⟨b.taskID, BodyPC.done⟩ : BodyState) :: post := by
        rintro b2 (h2 | h2)
        · exact List.mem_append_left _ h2
        · exact List.mem_append_right _ (List.mem_cons_of_mem _ h2)
      have hsplit : ∀ {b2 : BodyState},
          b2 ∈ pre ++ (⟨b.taskID, BodyPC.done⟩ : BodyState) :: post →
          b2 ∈ pre ∨ b2 = ⟨b.taskID, BodyPC.done⟩ ∨ b2 ∈ post := by
        intro b2 h2
        rcases List.mem_append.mp h2 with h3 | h3
        · exact Or.inl h3
        · rcases List.mem_cons.mp h3 with h4 | h4
          · exact Or.inr (Or.inl h4)
          · exact Or.inr (Or.inr h4)
      refine ⟨inv.ids_nodup, ?_, ?_, ?_, ?_, ?_, ?_, ?_⟩
      · show countBusy (pre ++ (⟨b.taskID, BodyPC.done⟩ : BodyState) :: post) ≤ mp
        have hle : countBusy (pre ++ (⟨b.taskID, BodyPC.done⟩ : BodyState) :: post)
            ≤ countBusy (pre ++ b :: post) := by
          rw [countBusy_append, countBusy_cons, countBusy_append, countBusy_cons]
          have : (if (⟨b.taskID, BodyPC.done⟩ : BodyState).pc = BodyPC.done
              then 0 else 1) = 0 := by simp
          omega
        have := inv.sem_le
        rw [semHeld_eq_countBusy, h] at this
        omega
      · dsimp only
        rw [mapId_middle, ← h]
        exact inv.bodies_ids_nodup
      · intro b2 hb2 hw
        dsimp only at hb2 ⊢
        rcases hsplit hb2 with h2 | h2 | h2
        · exact inv.body_working b2 (hmemold b2 (Or.inl h2)) hw
        · subst h2
          simp at hw
        · exact inv.body_working b2 (hmemold b2 (Or.inr h2)) hw
      · intro b2 hb2 hnw
        dsimp only at hb2 ⊢
        rcases hsplit hb2 with h2 | h2 | h2
        · exact inv.body_rest b2 (hmemold b2 (Or.inl h2)) hnw
        · subst h2
          exact inv.body_rest b hbmem (by rw [hpc]; intro hx; cases hx)
        · exact inv.body_rest b2 (hmemold b2 (Or.inr h2)) hnw
      · intro q hq
        dsimp only at hq ⊢
        rcases inv.running_covered q hq with ⟨rest0, hm⟩ | ⟨b2, hb2, hbid, hbpc⟩
        · exact Or.inl ⟨rest0, hm⟩
        · have hb2ne : b2 ≠ b := by
            intro he
            rw [he, hpc] at hbpc
            cases hbpc
          have hb2mem : b2 ∈ pre ∨ b2 ∈ post := by
            rw [h] at hb2
            rcases List.mem_append.mp hb2 with h3 | h3
            · exact Or.inl h3
            · rcases List.mem_cons.mp h3 with h4 | h4
              · exact absurd h4 hb2ne
              · exact Or.inr h4
          exact Or.inr ⟨b2, hmemnew b2 hb2mem, hbid, hbpc⟩
      · intro batch hb
        dsimp only at hb
        obtain ⟨hbnd, hball⟩ := inv.dispatch_ok batch hb
        refine ⟨hbnd, ?_⟩
        intro q hq
        refine ⟨(hball q hq).1, ?_⟩
        intro b2 hb2
        dsimp only at hb2
        rcases hsplit hb2 with h2 | h2 | h2
        · exact (hball q hq).2 b2 (hmemold b2 (Or.inl h2))
        · subst h2
          exact (hball q hq).2 b hbmem
        · exact (hball q hq).2 b2 (hmemold b2 (Or.inr h2))
      · intro t' rest' hb
        dsimp only at hb
        obtain ⟨hts, htb, htnotin, htnd, htrest⟩ := inv.acquiring_ok t' rest' hb
        refine ⟨hts, ?_, htnotin, htnd, ?_⟩
        · intro b2 hb2
          dsimp only at hb2
          rcases hsplit hb2 with h2 | h2 | h2
          · exact htb b2 (hmemold b2 (Or.inl h2))
          · subst h2
            exact htb b hbmem
          · exact htb b2 (hmemold b2 (Or.inr h2))
        · intro q hq
          refine ⟨(htrest q hq).1, ?_⟩
          intro b2 hb2
          dsimp only at hb2
          rcases hsplit hb2 with h2 | h2 | h2
          · exact (htrest q hq).2 b2 (hmemold b2 (Or.inl h2))
          · subst h2
            exact (htrest q hq).2 b hbmem
          · exact (htrest q hq).2 b2 (hmemold b2 (Or.inr h2))
  | drainFinish h hdone =>
      refine ⟨inv.ids_nodup, inv.sem_le, inv.bodies_ids_nodup,
        inv.body_working, inv.body_rest, ?_, ?_, ?_⟩
      · intro q hq
        rcases inv.running_covered q hq with ⟨rest, hm⟩ | hbody
        · rw [h] at hm; simp at hm
        · exact Or.inr hbody
      · intro batch hb; simp at hb
      · intro t rest hb; simp at hb

/-- The invariant holds in every reachable configuration. -/
theorem ExecInv.reach {mp : Nat} {c0 c : ExecConfig}
    (inv : ExecInv mp c0) (h : ExecReach mp c0 c) : ExecInv mp c := by
  induction h with
  | refl => exact inv
  | tail h1 h2 ih => exact ih.preserve h2

/-- Counting: under the invariant, at most one `running` task (the
marked-but-not-admitted one) exceeds the bodies holding slots. -/
theorem ExecInv.countRunning_le {mp : Nat} {c : ExecConfig}
    (inv : ExecInv mp c) : countRunning c.dag ≤ mp + 1 := by
  have hlen : countRunning c.dag
      = ((c.dag.filter (fun t => t.status == .running)).map Task.id).length := by
    simp [countRunning]
  have hnd : ((c.dag.filter (fun t => t.status == .running)).map Task.id).Nodup := by
    have hsub : List.Sublist (c.dag.filter (fun t => t.status == .running)) c.dag :=
      List.filter_sublist _
    exact (hsub.map Task.id).nodup inv.ids_nodup
  have hsubset : ∀ q ∈ (c.dag.filter (fun t => t.status == .running)).map Task.id,
      q ∈ mainAcqList c.main
        ++ (c.bodies.filter (fun b => b.pc == .working)).map BodyState.taskID := by
    intro q hq
    rw [List.mem_map] at hq
    obtain ⟨t, ht, rfl⟩ := hq
    rw [List.mem_filter] at ht
    have hts : t.status = .running := by simpa using ht.2
    have hst : statusOf c.dag t.id = some .running := by
      rw [statusOf_of_mem inv.ids_nodup ht.1, hts]
    rcases inv.running_covered t.id hst with ⟨rest, hmain⟩ | ⟨b, hb, hbid, hbpc⟩
    · apply List.mem_append_left
      rw [hmain]
      simp [mainAcqList]
    · apply List.mem_append_right
      rw [List.mem_map]
      exact ⟨b, List.mem_filter.mpr ⟨hb, by simp [hbpc]⟩, hbid⟩
  have hsp := List.subperm_of_subset hnd hsubset
  have hle1 := hsp.length_le
  have hle2 : (mainAcqList c.main).length ≤ 1 := by
    cases c.main <;> simp [mainAcqList]
  have hle3 : ((c.bodies.filter (fun b => b.pc == .working)).map
      BodyState.taskID).length ≤ semHeld c := by
    rw [List.length_map, semHeld_eq_countBusy, countBusy]
    refine filter_length_mono _ _ _ ?_
    intro b hb
    have : b.pc = .working := by simpa using hb
    simp [this]
  have hle4 := inv.sem_le
  rw [hlen]
  rw [List.length_append] at hle1
  omega

/-- **C4 (amended).** For every run of the executor started with no task
already `running`: in every reachable configuration with parallelism
bound `mp`, at most `mp` semaphore slots are held (so at most `mp` task
bodies execute concurrently), and at most `mp + 1` tasks have status
`running` — the one extra task being the ready task the main loop has
marked running but not yet admitted through the semaphore. -/
theorem C4_running_bound (mp : Nat) (d : DAG)
    (hn : (d.map Task.id).Nodup) (hnr : ∀ t ∈ d, t.status ≠ .running) :
    ∀ c, ExecReach mp { dag := d, main := .loopHead, bodies := [] } c →
      semHeld c ≤ mp ∧ countRunning c.dag ≤ mp + 1 := by
  intro c h
  have inv := (ExecInv.init mp d hn hnr).reach h
  exact ⟨inv.sem_le, inv.countRunning_le⟩

/-- Witness for C4 on the two-task scenario at the initial
configuration. -/
theorem C4_running_bound_witness :
    semHeld c4Init ≤ 1 ∧ countRunning c4Init.dag ≤ 1 + 1 :=
  C4_running_bound 1 twoDag (by decide) (by decide) c4Init
    Relation.ReflTransGen.refl

theorem dfsVisit_succ_eq (tasks : DAG) (fuel : Nat) (nodeID : String)
    (s : DfsState) :
    dfsVisit tasks (fuel + 1) nodeID s =
      if s.flag then some s
      else if nodeID ∈ s.grays then some { s with flag := true }
      else if nodeID ∈ s.blacks then some s
      else
        match dfsVisitDeps tasks fuel (depsOf tasks nodeID)
            { s with grays := nodeID :: s.grays } with
        | none => none
        | some s2 => some (blacken nodeID s2) := rfl

theorem dfsVisitDeps_nil (tasks : DAG) (fuel : Nat) (s : DfsState) :
    dfsVisitDeps tasks fuel [] s = some s := rfl

theorem dfsVisitDeps_absorb (tasks : DAG) (fuel : Nat) (deps : List String) :
    deps.foldl
      (fun acc dep =>
        match acc with
        | none => none
        | some s' => dfsVisit tasks fuel dep s')
      none = none := by
  induction deps with
  | nil => rfl
  | cons d rest ih => rw [List.foldl_cons]; exact ih

theorem dfsVisitDeps_cons (tasks : DAG) (fuel : Nat) (dep : String)
    (rest : List String) (s : DfsState) :
    dfsVisitDeps tasks fuel (dep :: rest) s =
      match dfsVisit tasks fuel dep s with
      | none => none
      | some s' => dfsVisitDeps tasks fuel rest s' := by
  show List.foldl _ _ _ = _
  rw [List.foldl_cons]
  dsimp only
  cases hv : dfsVisit tasks fuel dep s with
  | none =>
      dsimp only
      exact dfsVisitDeps_absorb tasks fuel rest
  | some s2 =>
      dsimp only
      rfl

theorem filter_length_lt {α : Type} (l : List α) (p q : α → Bool)
    (h : ∀ a, q a = true → p a = true) (x : α) (hx : x ∈ l)
    (hpx : p x = true) (hqx : q x = false) :
    (l.filter q).length < (l.filter p).length := by
  induction l with
  | nil => cases hx
  | cons a rest ih =>
      rcases List.mem_cons.mp hx with rfl | hx2
      · rw [List.filter_cons, List.filter_cons, hpx, hqx]
        have := filter_length_mono rest q p h
        simp only [if_true, Bool.false_eq_true, if_false, List.length_cons]
        omega
      · rw [List.filter_cons, List.filter_cons]
        by_cases hqa : q a = true
        · have hpa := h a hqa
          rw [hqa, hpa]
          simp only [if_true, List.length_cons]
          have := ih hx2
          omega
        · have hqa2 : q a = false := by
            cases hq2 : q a
            · rfl
            · exact absurd hq2 hqa
          rw [hqa2]
          by_cases hpa : p a = true
          · rw [hpa]
            simp only [Bool.false_eq_true, if_false, if_true, List.length_cons]
            have := ih hx2
            omega
          · have hpa2 : p a = false := by
              cases hp2 : p a
              · rfl
              · exact absurd hp2 hpa
            rw [hpa2]
            simp only [Bool.false_eq_true, if_false]
            exact ih hx2

theorem depsOf_subset_universe (tasks : DAG) (nodeID : String) :
    ∀ d ∈ depsOf tasks nodeID, d ∈ dfsUniverse tasks := by
  intro d hd
  rw [depsOf] at hd
  cases hft : findTask tasks nodeID with
  | none => rw [hft] at hd; cases hd
  | some t =>
      rw [hft] at hd
      rw [dfsUniverse]
      apply List.mem_append_right
      rw [List.mem_flatMap]
      exact ⟨t, findTask_mem hft, hd⟩

theorem depEdge_of_depsOf {tasks : DAG} {nodeID d : String}
    (hd : d ∈ depsOf tasks nodeID) : depEdge tasks nodeID d := by
  rw [depsOf] at hd
  cases hft : findTask tasks nodeID with
  | none => rw [hft] at hd; cases hd
  | some t =>
      rw [hft] at hd
      exact ⟨t, findTask_mem hft, findTask_id hft, hd⟩

theorem whites_mono (tasks : DAG) {s s' : DfsState}
    (h : ∀ id, id ∈ s.grays ∨ id ∈ s.blacks → id ∈ s'.grays ∨ id ∈ s'.blacks) :
    whites tasks s' ≤ whites tasks s := by
  apply filter_length_mono
  intro a ha
  rw [Bool.and_eq_true, decide_eq_true_iff, decide_eq_true_iff] at ha ⊢
  constructor
  · intro hmem
    exact absurd (h a (Or.inl hmem)) (by
      push_neg
      exact ⟨ha.1, ha.2⟩)
  · intro hmem
    exact absurd (h a (Or.inr hmem)) (by
      push_neg
      exact ⟨ha.1, ha.2⟩)

theorem whites_push_gray (tasks : DAG) (s : DfsState) (nodeID : String)
    (hu : nodeID ∈ dfsUniverse tasks) (hg : nodeID ∉ s.grays)
    (hb : nodeID ∉ s.blacks) :
    whites tasks { s with grays := nodeID :: s.grays } < whites tasks s := by
  apply filter_length_lt _ _ _ _ nodeID hu
  · rw [Bool.and_eq_true, decide_eq_true_iff, decide_eq_true_iff]
    exact ⟨hg, hb⟩
  · rw [Bool.and_eq_false_iff]
    left
    rw [decide_eq_false_iff_not]
    push_neg
    exact List.mem_cons_self _ _
  · intro a ha
    rw [Bool.and_eq_true, decide_eq_true_iff, decide_eq_true_iff] at ha ⊢
    exact ⟨fun hmem => ha.1 (List.mem_cons_of_mem _ hmem), ha.2⟩

/-- Colouring is monotone: a DFS call never un-colours a node. -/
theorem dfs_mono (tasks : DAG) : ∀ fuel : Nat,
    (∀ nodeID s s', dfsVisit tasks fuel nodeID s = some s' →
      ∀ id, id ∈ s.grays ∨ id ∈ s.blacks → id ∈ s'.grays ∨ id ∈ s'.blacks) ∧
    (∀ deps s s', dfsVisitDeps tasks fuel deps s = some s' →
      ∀ id, id ∈ s.grays ∨ id ∈ s.blacks → id ∈ s'.grays ∨ id ∈ s'.blacks) := by
  intro fuel
  induction fuel with
  | zero =>
      constructor
      · intro nodeID s s' hv
        simp [dfsVisit] at hv
      · intro deps
        induction deps with
        | nil =>
            intro s s' hv id hid
            rw [dfsVisitDeps_nil] at hv
            cases hv
            exact hid
        | cons d rest ihd =>
            intro s s' hv id hid
            rw [dfsVisitDeps_cons] at hv
            simp [dfsVisit] at hv
  | succ fuel ih =>
      have hP : ∀ nodeID s s', dfsVisit tasks (fuel + 1) nodeID s = some s' →
          ∀ id, id ∈ s.grays ∨ id ∈ s.blacks →
            id ∈ s'.grays ∨ id ∈ s'.blacks := by
        intro nodeID s s' hv id hid
        rw [dfsVisit_succ_eq] at hv
        by_cases hf : s.flag = true
        · rw [if_pos hf] at hv
          cases hv
          exact hid
        · rw [if_neg hf] at hv
          by_cases hg : nodeID ∈ s.grays
          · rw [if_pos hg] at hv
            cases hv
            exact hid
          · rw [if_neg hg] at hv
            by_cases hb : nodeID ∈ s.blacks
            · rw [if_pos hb] at hv
              cases hv
              exact hid
            · rw [if_neg hb] at hv
              cases hdeps : dfsVisitDeps tasks fuel (depsOf tasks nodeID)
                  { s with grays := nodeID :: s.grays } with
              | none => rw [hdeps] at hv; cases hv
              | some s2 =>
                  rw [hdeps] at hv
                  cases hv
                  have hmid := ih.2 _ _ _ hdeps id (by
                    rcases hid with hidg | hidb
                    · exact Or.inl (List.mem_cons_of_mem _ hidg)
                    · exact Or.inr hidb)
                  simp only [blacken]
                  rcases hmid with hg2 | hb2
                  · by_cases hne : id = nodeID
                    · subst hne
                      exact Or.inr (List.mem_cons_self _ _)
                    · exact Or.inl ((List.mem_erase_of_ne hne).mpr hg2)
                  · exact Or.inr (List.mem_cons_of_mem _ hb2)
      refine ⟨hP, ?_⟩
      intro deps
      induction deps with
      | nil =>
          intro s s' hv id hid
          rw [dfsVisitDeps_nil] at hv
          cases hv
          exact hid
      | cons d rest ihd =>
          intro s s' hv id hid
          rw [dfsVisitDeps_cons] at hv
          cases hmid : dfsVisit tasks (fuel + 1) d s with
          | none => rw [hmid] at hv; cases hv
          | some smid =>
              rw [hmid] at hv
              exact ihd smid s' hv id (hP d s smid hmid id hid)

/-- With fuel exceeding the white count the DFS cannot run out. -/
theorem dfs_isSome (tasks : DAG) : ∀ fuel : Nat,
    (∀ nodeID s, nodeID ∈ dfsUniverse tasks → whites tasks s < fuel →
      ∃ s', dfsVisit tasks fuel nodeID s = some s') ∧
    (∀ deps s, (∀ d ∈ deps, d ∈ dfsUniverse tasks) → whites tasks s < fuel →
      ∃ s', dfsVisitDeps tasks fuel deps s = some s') := by
  intro fuel
  induction fuel with
  | zero =>
      constructor
      · intro nodeID s hu hw
        omega
      · intro deps s hu hw
        omega
  | succ fuel ih =>
      have hP : ∀ nodeID s, nodeID ∈ dfsUniverse tasks →
          whites tasks s < fuel + 1 →
          ∃ s', dfsVisit tasks (fuel + 1) nodeID s = some s' := by
        intro nodeID s hu hw
        rw [dfsVisit_succ_eq]
        by_cases hf : s.flag = true
        · rw [if_pos hf]
          exact ⟨s, rfl⟩
        · rw [if_neg hf]
          by_cases hg : nodeID ∈ s.grays
          · rw [if_pos hg]
            exact ⟨_, rfl⟩
          · rw [if_neg hg]
            by_cases hb : nodeID ∈ s.blacks
            · rw [if_pos hb]
              exact ⟨s, rfl⟩
            · rw [if_neg hb]
              have hlt := whites_push_gray tasks s nodeID hu hg hb
              obtain ⟨s2, h2⟩ := ih.2 (depsOf tasks nodeID)
                { s with grays := nodeID :: s.grays }
                (depsOf_subset_universe tasks nodeID) (by omega)
              rw [h2]
              exact ⟨blacken nodeID s2, rfl⟩
      refine ⟨hP, ?_⟩
      intro deps
      induction deps with
      | nil =>
          intro s hu hw
          exact ⟨s, dfsVisitDeps_nil tasks _ s⟩
      | cons d rest ihd =>
          intro s hu hw
          obtain ⟨smid, hmid⟩ := hP d s (hu d (List.mem_cons_self _ _)) hw
          have hwm : whites tasks smid ≤ whites tasks s :=
            whites_mono tasks ((dfs_mono tasks (fuel + 1)).1 d s smid hmid)
          obtain ⟨s', h'⟩ := ihd smid
            (fun d2 hd2 => hu d2 (List.mem_cons_of_mem _ hd2)) (by omega)
          rw [dfsVisitDeps_cons, hmid]
          exact ⟨s', h'⟩

/-! ### DFS invariant: gray chain, black closure -/

theorem blacken_flag (nodeID : String) (s : DfsState) :
    (blacken nodeID s).flag = s.flag := rfl

theorem blacken_grays (nodeID : String) (s : DfsState) :
    (blacken nodeID s).grays = s.grays.erase nodeID := rfl

theorem blacken_blacks (nodeID : String) (s : DfsState) :
    (blacken nodeID s).blacks = nodeID :: s.blacks := rfl

theorem bool_eq_false {b : Bool} (h : ¬ b = true) : b = false := by
  cases b
  · rfl
  · exact absurd rfl h

/-- Walking up a gray dependency chain reaches the top of the stack. -/
theorem chain_reach (tasks : DAG) : ∀ l : List String,
    List.Chain' (fun a b => depEdge tasks b a) l →
    ∀ g rest, l = g :: rest → ∀ x ∈ l,
      x = g ∨ Relation.TransGen (depEdge tasks) x g := by
  intro l
  induction l with
  | nil =>
      intro _ g rest _ x hx
      cases hx
  | cons a l2 ih =>
      intro hch g rest hl x hx
      cases hl
      rcases List.mem_cons.mp hx with rfl | hx2
      · exact Or.inl rfl
      · cases l2 with
        | nil => cases hx2
        | cons b l3 =>
            have hab : depEdge tasks b a := (List.chain'_cons.mp hch).1
            have hch2 := (List.chain'_cons.mp hch).2
            rcases ih hch2 b l3 rfl x hx2 with rfl | htg
            · exact Or.inr (Relation.TransGen.single hab)
            · exact Or.inr (htg.tail hab)

/-- Revisiting a gray node closes a genuine directed cycle: the gray
chain rises from the revisited node to the stack top, whose dependency
the revisited node is. -/
theorem cyclic_of_gray_hit (tasks : DAG) {s : DfsState} {nodeID : String}
    (hch : List.Chain' (fun a b => depEdge tasks b a) s.grays)
    (hedge : ∀ g rest, s.grays = g :: rest → depEdge tasks g nodeID)
    (hg : nodeID ∈ s.grays) : Cyclic tasks := by
  cases hgr : s.grays with
  | nil => rw [hgr] at hg; cases hg
  | cons g rest =>
      have he := hedge g rest hgr
      rw [hgr] at hch hg
      rcases chain_reach tasks (g :: rest) hch g rest rfl nodeID hg
          with rfl | ht
      · exact ⟨nodeID, Relation.TransGen.single he⟩
      · exact ⟨nodeID, ht.tail he⟩

/-- Main DFS specification, by fuel induction: a successful visit
preserves the invariant, never un-blackens a node, is the identity once
the flag is set, and — when the flag stays unset — restores the gray
stack and blackens the visited node (all the dependencies, for the
dependency fold). -/
theorem dfs_spec (tasks : DAG) : ∀ fuel : Nat,
    (∀ nodeID s s', dfsVisit tasks fuel nodeID s = some s' →
      DfsInv tasks s →
      (s.flag = false → ∀ g rest, s.grays = g :: rest →
        depEdge tasks g nodeID) →
      DfsInv tasks s' ∧ (∀ id ∈ s.blacks, id ∈ s'.blacks) ∧
        (s.flag = true → s' = s) ∧
        (s'.flag = false → s'.grays = s.grays ∧ nodeID ∈ s'.blacks)) ∧
    (∀ deps s s', dfsVisitDeps tasks fuel deps s = some s' →
      DfsInv tasks s →
      (s.flag = false → ∀ g rest, s.grays = g :: rest →
        ∀ d ∈ deps, depEdge tasks g d) →
      DfsInv tasks s' ∧ (∀ id ∈ s.blacks, id ∈ s'.blacks) ∧
        (s.flag = true → s' = s) ∧
        (s'.flag = false → s'.grays = s.grays ∧
          ∀ d ∈ deps, d ∈ s'.blacks)) := by
  intro fuel
  induction fuel with
  | zero =>
      constructor
      · intro nodeID s s' hv
        simp [dfsVisit] at hv
      · intro deps
        induction deps with
        | nil =>
            intro s s' hv hs _
            rw [dfsVisitDeps_nil] at hv
            cases hv
            exact ⟨hs, fun id h => h, fun _ => rfl,
              fun _ => ⟨rfl, fun d hd => absurd hd (List.not_mem_nil d)⟩⟩
        | cons d rest ihd =>
            intro s s' hv
            rw [dfsVisitDeps_cons] at hv
            simp [dfsVisit] at hv
  | succ fuel ih =>
      have hP : ∀ nodeID s s', dfsVisit tasks (fuel + 1) nodeID s = some s' →
          DfsInv tasks s →
          (s.flag = false → ∀ g rest, s.grays = g :: rest →
            depEdge tasks g nodeID) →
          DfsInv tasks s' ∧ (∀ id ∈ s.blacks, id ∈ s'.blacks) ∧
            (s.flag = true → s' = s) ∧
            (s'.flag = false → s'.grays = s.grays ∧ nodeID ∈ s'.blacks) := by
        intro nodeID s s' hv hs hedge
        rw [dfsVisit_succ_eq] at hv
        by_cases hf : s.flag = true
        · rw [if_pos hf] at hv
          cases hv
          exact ⟨hs, fun id h => h, fun _ => rfl, fun h => by
            rw [hf] at h; exact Bool.noConfusion h⟩
        · have hf' : s.flag = false := bool_eq_false hf
          rw [if_neg hf] at hv
          by_cases hg : nodeID ∈ s.grays
          · rw [if_pos hg] at hv
            cases hv
            refine ⟨⟨fun _ => cyclic_of_gray_hit tasks (hs.chain hf')
                (hedge hf') hg, ?_, ?_, ?_, ?_, ?_⟩,
              fun id h => h, fun hft => absurd hft hf, fun h =>
                Bool.noConfusion h⟩
            all_goals intro h; exact Bool.noConfusion h
          · rw [if_neg hg] at hv
            by_cases hb : nodeID ∈ s.blacks
            · rw [if_pos hb] at hv
              cases hv
              exact ⟨hs, fun id h => h, fun hft => absurd hft hf,
                fun _ => ⟨rfl, hb⟩⟩
            · rw [if_neg hb] at hv
              cases hdeps : dfsVisitDeps tasks fuel (depsOf tasks nodeID)
                  { s with grays := nodeID :: s.grays } with
              | none => rw [hdeps] at hv; cases hv
              | some s2 =>
                  rw [hdeps] at hv
                  cases hv
                  have hinv1 : DfsInv tasks
                      { s with grays := nodeID :: s.grays } := by
                    refine ⟨?_, ?_, ?_, ?_, ?_, ?_⟩
                    · intro h
                      rw [show ({ s with grays := nodeID :: s.grays } :
                          DfsState).flag = s.flag from rfl, hf'] at h
                      exact Bool.noConfusion h
                    · intro _
                      show List.Chain' _ (nodeID :: s.grays)
                      cases hgr : s.grays with
                      | nil => exact List.chain'_singleton nodeID
                      | cons g grest =>
                          rw [List.chain'_cons]
                          refine ⟨hedge hf' g grest hgr, ?_⟩
                          have := hs.chain hf'
                          rw [hgr] at this
                          exact this
                    · intro _
                      exact List.nodup_cons.mpr ⟨hg, hs.grays_nodup hf'⟩
                    · intro _ id hid
                      rcases List.mem_cons.mp hid with rfl | hid2
                      · exact hb
                      · exact hs.disj hf' id hid2
                    · intro _
                      exact hs.blacks_nodup hf'
                    · intro _
                      exact hs.closed hf'
                  have hedge1 : ({ s with grays := nodeID :: s.grays } :
                      DfsState).flag = false → ∀ g grest,
                      ({ s with grays := nodeID :: s.grays } :
                        DfsState).grays = g :: grest →
                      ∀ d ∈ depsOf tasks nodeID, depEdge tasks g d := by
                    intro _ g grest hgr d hd
                    have hgn : g = nodeID := by
                      have : nodeID :: s.grays = g :: grest := hgr
                      exact (List.cons.injEq _ _ _ _ ▸ this).1.symm
                    rw [hgn]
                    exact depEdge_of_depsOf hd
                  obtain ⟨hinv2, hbm2, hfz2, hg2⟩ :=
                    ih.2 _ _ _ hdeps hinv1 hedge1
                  by_cases hf2 : s2.flag = true
                  · refine ⟨⟨?_, ?_, ?_, ?_, ?_, ?_⟩, ?_, ?_, ?_⟩
                    · intro _
                      exact hinv2.flag_cyc hf2
                    · intro h
                      rw [blacken_flag, hf2] at h
                      exact Bool.noConfusion h
                    · intro h
                      rw [blacken_flag, hf2] at h
                      exact Bool.noConfusion h
                    · intro h
                      rw [blacken_flag, hf2] at h
                      exact Bool.noConfusion h
                    · intro h
                      rw [blacken_flag, hf2] at h
                      exact Bool.noConfusion h
                    · intro h
                      rw [blacken_flag, hf2] at h
                      exact Bool.noConfusion h
                    · intro id hid
                      rw [blacken_blacks]
                      exact List.mem_cons_of_mem _ (hbm2 id hid)
                    · intro hft
                      exact absurd hft hf
                    · intro h
                      rw [blacken_flag, hf2] at h
                      exact Bool.noConfusion h
                  · have hf2' : s2.flag = false := bool_eq_false hf2
                    obtain ⟨hg2eq, hg2bl⟩ := hg2 hf2'
                    have hg2eq' : s2.grays = nodeID :: s.grays := hg2eq
                    have hserase : (blacken nodeID s2).grays = s.grays := by
                      rw [blacken_grays, hg2eq', List.erase_cons_head]
                    have hnid_gray : nodeID ∈ s2.grays := by
                      rw [hg2eq']
                      exact List.mem_cons_self _ _
                    have hnid_nb : nodeID ∉ s2.blacks :=
                      hinv2.disj hf2' nodeID hnid_gray
                    refine ⟨⟨?_, ?_, ?_, ?_, ?_, ?_⟩, ?_, ?_, ?_⟩
                    · intro h
                      rw [blacken_flag, hf2'] at h
                      exact Bool.noConfusion h
                    · intro _
                      rw [hserase]
                      exact hs.chain hf'
                    · intro _
                      rw [hserase]
                      exact hs.grays_nodup hf'
                    · intro _ id hid
                      rw [hserase] at hid
                      rw [blacken_blacks]
                      intro hmem
                      rcases List.mem_cons.mp hmem with rfl | hmem2
                      · exact hg hid
                      · exact hinv2.disj hf2' id
                          (by rw [hg2eq']
                              exact List.mem_cons_of_mem _ hid) hmem2
                    · intro _
                      rw [blacken_blacks]
                      exact List.nodup_cons.mpr
                        ⟨hnid_nb, hinv2.blacks_nodup hf2'⟩
                    · intro _ pre b post heq d hd
                      rw [blacken_blacks] at heq
                      cases pre with
                      | nil =>
                          have hb1 : nodeID = b :=
                            (List.cons.injEq _ _ _ _ ▸ heq).1
                          have hb2 : s2.blacks = post :=
                            (List.cons.injEq _ _ _ _ ▸ heq).2
                          rw [← hb1] at hd
                          rw [← hb2]
                          exact hg2bl d hd
                      | cons p pre2 =>
                          have hp1 : s2.blacks = pre2 ++ b :: post :=
                            (List.cons.injEq _ _ _ _ ▸ heq).2
                          exact hinv2.closed hf2' pre2 b post hp1 d hd
                    · intro id hid
                      rw [blacken_blacks]
                      exact List.mem_cons_of_mem _ (hbm2 id hid)
                    · intro hft
                      exact absurd hft hf
                    · intro _
                      refine ⟨hserase, ?_⟩
                      rw [blacken_blacks]
                      exact List.mem_cons_self _ _
      refine ⟨hP, ?_⟩
      intro deps
      induction deps with
      | nil =>
          intro s s' hv hs _
          rw [dfsVisitDeps_nil] at hv
          cases hv
          exact ⟨hs, fun id h => h, fun _ => rfl,
            fun _ => ⟨rfl, fun d hd => absurd hd (List.not_mem_nil d)⟩⟩
      | cons d rest ihd =>
          intro s s' hv hs hedge
          rw [dfsVisitDeps_cons] at hv
          cases hmid : dfsVisit tasks (fuel + 1) d s with
          | none => rw [hmid] at hv; cases hv
          | some smid =>
              rw [hmid] at hv
              obtain ⟨hinvm, hbmm, hfzm, hgm⟩ := hP d s smid hmid hs
                (fun hfs g grest hgr =>
                  hedge hfs g grest hgr d (List.mem_cons_self _ _))
              obtain ⟨hinv', hbm', hfz', hg'⟩ := ihd smid s' hv hinvm
                (by
                  intro hfm g grest hgr d2 hd2
                  have hfs : s.flag = false := by
                    cases hsf : s.flag with
                    | false => rfl
                    | true =>
                        have heqm := hfzm hsf
                        rw [heqm, hsf] at hfm
                        exact Bool.noConfusion hfm
                  have hge := (hgm hfm).1
                  exact hedge hfs g grest (by rw [← hge]; exact hgr) d2
                    (List.mem_cons_of_mem _ hd2))
              refine ⟨hinv', fun id hid => hbm' id (hbmm id hid), ?_, ?_⟩
              · intro hsf
                have heqm := hfzm hsf
                have hmf : smid.flag = true := by rw [heqm]; exact hsf
                rw [hfz' hmf, heqm]
              · intro hf'
                have hfm : smid.flag = false := by
                  cases hmf : smid.flag with
                  | false => rfl
                  | true =>
                      have := hfz' hmf
                      rw [this, hmf] at hf'
                      exact Bool.noConfusion hf'
                obtain ⟨hgem, hdm⟩ := hgm hfm
                obtain ⟨hge', hd'⟩ := hg' hf'
                refine ⟨by rw [hge', hgem], ?_⟩
                intro d2 hd2
                rcases List.mem_cons.mp hd2 with rfl | hd3
                · exact hbm' d2 hdm
                · exact hd' d2 hd3

/-- The empty colouring satisfies the invariant. -/
theorem DfsInv_init (tasks : DAG) : DfsInv tasks ⟨[], [], false⟩ := by
  refine ⟨?_, ?_, ?_, ?_, ?_, ?_⟩
  · intro h
    exact Bool.noConfusion h
  · intro _
    exact List.chain'_nil
  · intro _
    exact List.nodup_nil
  · intro _ id hid
    cases hid
  · intro _
    exact List.nodup_nil
  · intro _ pre b post heq
    cases pre with
    | nil => cases heq
    | cons p pre2 => cases heq

/-- Specification of the outer loop of `hasCycleLocked`: it preserves the
invariant, keeps black nodes black, freezes once the flag is set, and —
when the flag stays unset — ends with an empty gray stack and every
processed ID black. -/
theorem hasCycleLoop_spec (tasks : DAG) (fuel : Nat) :
    ∀ (ids : List String) (s s' : DfsState),
    hasCycleLoop tasks fuel ids s = some s' →
    DfsInv tasks s →
    (s.flag = false → s.grays = []) →
    DfsInv tasks s' ∧ (∀ id ∈ s.blacks, id ∈ s'.blacks) ∧
      (s.flag = true → s' = s) ∧
      (s'.flag = false → s'.grays = [] ∧ ∀ id ∈ ids, id ∈ s'.blacks) := by
  intro ids
  induction ids with
  | nil =>
      intro s s' hv hs hgr
      cases hv
      refine ⟨hs, fun id h => h, fun _ => rfl, ?_⟩
      intro hf
      exact ⟨hgr hf, fun id hid => by cases hid⟩
  | cons id rest ih =>
      intro s s' hv hs hgr
      have hunf : hasCycleLoop tasks fuel (id :: rest) s =
          if id ∈ s.grays ∨ id ∈ s.blacks then
            hasCycleLoop tasks fuel rest s
          else
            match dfsVisit tasks fuel id s with
            | none => none
            | some s2 => hasCycleLoop tasks fuel rest s2 := rfl
      rw [hunf] at hv
      by_cases hc : id ∈ s.grays ∨ id ∈ s.blacks
      · rw [if_pos hc] at hv
        obtain ⟨hinv', hbm', hfz', hrest'⟩ := ih s s' hv hs hgr
        refine ⟨hinv', hbm', hfz', ?_⟩
        intro hf'
        obtain ⟨hge', hall'⟩ := hrest' hf'
        refine ⟨hge', ?_⟩
        intro x hx
        rcases List.mem_cons.mp hx with rfl | hx2
        · have hsf : s.flag = false := by
            cases hsc : s.flag with
            | false => rfl
            | true =>
                rw [hfz' hsc] at hf'
                rw [hsc] at hf'
                exact Bool.noConfusion hf'
          rcases hc with hcg | hcb
          · rw [hgr hsf] at hcg
            cases hcg
          · exact hbm' x hcb
        · exact hall' x hx2
      · rw [if_neg hc] at hv
        cases hmid : dfsVisit tasks fuel id s with
        | none => rw [hmid] at hv; cases hv
        | some s2 =>
            rw [hmid] at hv
            obtain ⟨hinv2, hbm2, hfz2, hg2⟩ :=
              (dfs_spec tasks fuel).1 id s s2 hmid hs
                (fun hfs g grest hge => by
                  rw [hgr hfs] at hge
                  cases hge)
            have hgr2 : s2.flag = false → s2.grays = [] := by
              intro hf2
              have hsf : s.flag = false := by
                cases hsc : s.flag with
                | false => rfl
                | true =>
                    rw [hfz2 hsc] at hf2
                    rw [hsc] at hf2
                    exact Bool.noConfusion hf2
              rw [(hg2 hf2).1]
              exact hgr hsf
            obtain ⟨hinv', hbm', hfz', hrest'⟩ := ih s2 s' hv hinv2 hgr2
            refine ⟨hinv', fun x hx => hbm' x (hbm2 x hx), ?_, ?_⟩
            · intro hsf
              have h2 := hfz2 hsf
              have h2f : s2.flag = true := by rw [h2]; exact hsf
              rw [hfz' h2f, h2]
            · intro hf'
              obtain ⟨hge', hall'⟩ := hrest' hf'
              refine ⟨hge', ?_⟩
              intro x hx
              have hf2 : s2.flag = false := by
                cases hsc : s2.flag with
                | false => rfl
                | true =>
                    rw [hfz' hsc] at hf'
                    rw [hsc] at hf'
                    exact Bool.noConfusion hf'
              rcases List.mem_cons.mp hx with rfl | hx2
              · exact hbm' x (hg2 hf2).2
              · exact hall' x hx2

/-- The outer loop never exhausts `dfsFuel`. -/
theorem hasCycleLoop_isSome (tasks : DAG) : ∀ (ids : List String)
    (s : DfsState), (∀ id ∈ ids, id ∈ dfsUniverse tasks) →
    whites tasks s < dfsFuel tasks →
    ∃ s', hasCycleLoop tasks (dfsFuel tasks) ids s = some s' := by
  intro ids
  induction ids with
  | nil =>
      intro s _ _
      exact ⟨s, rfl⟩
  | cons id rest ih =>
      intro s hu hw
      have hunf : hasCycleLoop tasks (dfsFuel tasks) (id :: rest) s =
          if id ∈ s.grays ∨ id ∈ s.blacks then
            hasCycleLoop tasks (dfsFuel tasks) rest s
          else
            match dfsVisit tasks (dfsFuel tasks) id s with
            | none => none
            | some s2 => hasCycleLoop tasks (dfsFuel tasks) rest s2 := rfl
      rw [hunf]
      by_cases hc : id ∈ s.grays ∨ id ∈ s.blacks
      · rw [if_pos hc]
        exact ih s (fun x hx => hu x (List.mem_cons_of_mem _ hx)) hw
      · rw [if_neg hc]
        obtain ⟨s2, h2⟩ := (dfs_isSome tasks (dfsFuel tasks)).1 id s
          (hu id (List.mem_cons_self _ _)) hw
        rw [h2]
        have hwm : whites tasks s2 ≤ whites tasks s :=
          whites_mono tasks
            ((dfs_mono tasks (dfsFuel tasks)).1 id s s2 h2)
        exact ih s2 (fun x hx => hu x (List.mem_cons_of_mem _ hx))
          (by omega)

/-- An initial white count is below `dfsFuel`. -/
theorem whites_lt_dfsFuel (tasks : DAG) (s : DfsState) :
    whites tasks s < dfsFuel tasks := by
  have := List.length_filter_le
    (fun id => decide (id ∉ s.grays) && decide (id ∉ s.blacks))
    (dfsUniverse tasks)
  rw [whites, dfsFuel]
  omega

/-- Under unique task IDs every dependency edge is recorded in `depsOf`. -/
theorem depsOf_of_depEdge {tasks : DAG}
    (hids : (tasks.map Task.id).Nodup) {u v : String}
    (he : depEdge tasks u v) : v ∈ depsOf tasks u := by
  obtain ⟨t, ht, htid, hv⟩ := he
  have hft : findTask tasks u = some t := by
    rw [← htid]
    exact findTask_of_mem hids ht
  rw [depsOf, hft]
  exact hv

/-- From a node of a dependency-closed duplicate-free list, every
transitively reachable node lies strictly later in the list. -/
theorem closed_reach_suffix (tasks : DAG)
    (hids : (tasks.map Task.id).Nodup) (bl : List String)
    (hcl : ∀ pre b post, bl = pre ++ b :: post →
      ∀ d ∈ depsOf tasks b, d ∈ post) :
    ∀ x y, Relation.TransGen (depEdge tasks) x y →
      ∀ pre post, bl = pre ++ x :: post → y ∈ post := by
  intro x y h
  induction h with
  | single he =>
      intro pre post hbl
      exact hcl pre x post hbl _ (depsOf_of_depEdge hids he)
  | tail h1 he ih =>
      rename_i b c
      intro pre post hbl
      have hbmem := ih pre post hbl
      obtain ⟨pre2, post2, hpost⟩ := List.append_of_mem hbmem
      have hbl2 : bl = (pre ++ x :: pre2) ++ b :: post2 := by
        rw [hbl, hpost]
        simp
      have hc := hcl _ _ _ hbl2 _ (depsOf_of_depEdge hids he)
      rw [hpost]
      exact List.mem_append_right _ (List.mem_cons_of_mem _ hc)

/-- Every node with an outgoing transitive path has an outgoing edge. -/
theorem transGen_first_edge {α : Type} {r : α → α → Prop} {x y : α}
    (h : Relation.TransGen r x y) : ∃ z, r x z := by
  induction h with
  | single he => exact ⟨_, he⟩
  | tail _ _ ih => exact ih

/-- A dependency-closed duplicate-free finish order rules out cycles
through its members. -/
theorem closed_no_cycle (tasks : DAG)
    (hids : (tasks.map Task.id).Nodup) (bl : List String)
    (hnd : bl.Nodup)
    (hcl : ∀ pre b post, bl = pre ++ b :: post →
      ∀ d ∈ depsOf tasks b, d ∈ post) :
    ∀ x ∈ bl, ¬ Relation.TransGen (depEdge tasks) x x := by
  intro x hx hcyc
  obtain ⟨pre, post, hbl⟩ := List.append_of_mem hx
  have hxpost := closed_reach_suffix tasks hids bl hcl x x hcyc pre post hbl
  rw [hbl] at hnd
  have := (List.nodup_append.mp hnd).2.1
  exact (List.nodup_cons.mp this).1 hxpost

/-- `HasCycle` decides the existence of a directed dependency cycle
(task IDs unique, as in the Go map). -/
theorem hasCycle_iff_cyclic (tasks : DAG)
    (hids : (tasks.map Task.id).Nodup) :
    hasCycle tasks = true ↔ Cyclic tasks := by
  obtain ⟨sf, hsf⟩ := hasCycleLoop_isSome tasks (tasks.map Task.id)
    ⟨[], [], false⟩
    (fun id hid => by
      rw [dfsUniverse]
      exact List.mem_append_left _ hid)
    (whites_lt_dfsFuel tasks ⟨[], [], false⟩)
  obtain ⟨hinvf, _, _, hresf⟩ := hasCycleLoop_spec tasks (dfsFuel tasks)
    (tasks.map Task.id) ⟨[], [], false⟩ sf hsf (DfsInv_init tasks)
    (fun _ => rfl)
  have hceq : hasCycle tasks = sf.flag := by
    rw [hasCycle, hsf]
  constructor
  · intro h
    rw [hceq] at h
    exact hinvf.flag_cyc h
  · intro hcyc
    rw [hceq]
    cases hflag : sf.flag with
    | true => rfl
    | false =>
        exfalso
        obtain ⟨hge, hall⟩ := hresf hflag
        obtain ⟨x, hx⟩ := hcyc
        obtain ⟨z, hz⟩ := transGen_first_edge hx
        obtain ⟨t, ht, htid, _⟩ := hz
        have hxb : x ∈ sf.blacks := hall x (by
          rw [← htid]
          exact List.mem_map_of_mem Task.id ht)
        exact closed_no_cycle tasks hids sf.blacks
          (hinvf.blacks_nodup hflag)
          (hinvf.closed hflag) x hxb hx

/-! ### Kahn's algorithm: in-degree map primitives -/

theorem id_inj {tasks : DAG} (hids : (tasks.map Task.id).Nodup)
    {t u : Task} (ht : t ∈ tasks) (hu : u ∈ tasks) (h : t.id = u.id) :
    t = u := by
  have h1 := findTask_of_mem hids ht
  have h2 := findTask_of_mem hids hu
  rw [h, h2] at h1
  exact (Option.some.inj h1).symm

theorem lookupDeg_cons_self {p : String × Int} {id : String}
    (rest : List (String × Int)) (h : p.1 = id) :
    lookupDeg (p :: rest) id = p.2 := by
  rw [lookupDeg, List.find?_cons_of_pos]
  · rfl
  · exact beq_iff_eq.mpr h

theorem lookupDeg_cons_ne {p : String × Int} {id : String}
    (rest : List (String × Int)) (h : ¬ p.1 = id) :
    lookupDeg (p :: rest) id = lookupDeg rest id := by
  rw [lookupDeg, List.find?_cons_of_neg, ← lookupDeg]
  simp [h]

theorem setDeg_cons (p : String × Int) (rest : List (String × Int))
    (id : String) (v : Int) :
    setDeg (p :: rest) id v =
      (if p.1 == id then (p.1, v) else p) :: setDeg rest id v := rfl

theorem setDeg_keys (inDeg : List (String × Int)) (id : String) (v : Int) :
    (setDeg inDeg id v).map Prod.fst = inDeg.map Prod.fst := by
  induction inDeg with
  | nil => rfl
  | cons p rest ih =>
      rw [setDeg_cons, List.map_cons, List.map_cons, ih]
      by_cases h : p.1 == id
      · rw [if_pos h]
      · rw [if_neg h]

theorem lookupDeg_setDeg_ne (inDeg : List (String × Int)) (id id' : String)
    (v : Int) (h : ¬ id' = id) :
    lookupDeg (setDeg inDeg id v) id' = lookupDeg inDeg id' := by
  induction inDeg with
  | nil => rfl
  | cons p rest ih =>
      rw [setDeg_cons]
      by_cases hp : p.1 = id
      · have hne : ¬ p.1 = id' := by
          rw [hp]
          intro hc
          exact h hc.symm
        rw [if_pos (beq_iff_eq.mpr hp)]
        rw [lookupDeg_cons_ne _ (by exact hne), lookupDeg_cons_ne _ hne]
        exact ih
      · rw [if_neg (by simp [hp])]
        by_cases hq : p.1 = id'
        · rw [lookupDeg_cons_self _ hq, lookupDeg_cons_self _ hq]
        · rw [lookupDeg_cons_ne _ hq, lookupDeg_cons_ne _ hq]
          exact ih

theorem lookupDeg_setDeg_self (inDeg : List (String × Int)) (id : String)
    (v : Int) (hk : id ∈ inDeg.map Prod.fst) :
    lookupDeg (setDeg inDeg id v) id = v := by
  induction inDeg with
  | nil => cases hk
  | cons p rest ih =>
      rw [setDeg_cons]
      by_cases hp : p.1 = id
      · rw [if_pos (beq_iff_eq.mpr hp)]
        exact lookupDeg_cons_self _ hp
      · rw [if_neg (by simp [hp]), lookupDeg_cons_ne _ hp]
        rw [List.map_cons] at hk
        rcases List.mem_cons.mp hk with h1 | h2
        · exact absurd h1.symm hp
        · exact ih h2

theorem initInDegree_cons (u : Task) (rest : DAG) :
    initInDegree (u :: rest) =
      (u.id, (u.dependsOn.length : Int)) :: initInDegree rest := rfl

theorem initInDegree_keys (tasks : DAG) :
    (initInDegree tasks).map Prod.fst = tasks.map Task.id := by
  induction tasks with
  | nil => rfl
  | cons u rest ih =>
      rw [initInDegree_cons, List.map_cons, List.map_cons, ih]

theorem lookupDeg_init (tasks : DAG) (hids : (tasks.map Task.id).Nodup)
    {t : Task} (ht : t ∈ tasks) :
    lookupDeg (initInDegree tasks) t.id = (t.dependsOn.length : Int) := by
  induction tasks with
  | nil => cases ht
  | cons u rest ih =>
      rw [initInDegree_cons]
      rw [List.map_cons, List.nodup_cons] at hids
      by_cases hp : u.id = t.id
      · have hts : t = u := by
          rcases List.mem_cons.mp ht with rfl | h2
          · rfl
          · exact absurd (hp ▸ List.mem_map_of_mem Task.id h2) hids.1
        rw [lookupDeg_cons_self _ hp, hts]
      · rw [lookupDeg_cons_ne _ hp]
        rcases List.mem_cons.mp ht with rfl | h2
        · exact absurd rfl hp
        · exact ih hids.2 h2

/-! ### Kahn's algorithm: the inner decrement fold -/

theorem contains_iff_mem {l : List String} {a : String} :
    l.contains a = true ↔ a ∈ l := List.elem_iff

theorem contains_eq_false_iff {l : List String} {a : String} :
    l.contains a = false ↔ a ∉ l := by
  constructor
  · intro h hm
    rw [contains_iff_mem.mpr hm] at h
    exact Bool.noConfusion h
  · intro h
    cases hc : l.contains a with
    | false => rfl
    | true => exact absurd (contains_iff_mem.mp hc) h

/-- Appending an element changes no other membership test. -/
theorem not_contains_append_singleton {rids : List String} {x c : String}
    (hxc : ¬ x = c) :
    ((rids ++ [c]).contains x) = (rids.contains x) := by
  cases hxr : rids.contains x with
  | true =>
      exact contains_iff_mem.mpr
        (List.mem_append_left _ (contains_iff_mem.mp hxr))
  | false =>
      rw [contains_eq_false_iff] at hxr
      apply contains_eq_false_iff.mpr
      intro hm
      rcases List.mem_append.mp hm with hm1 | hm2
      · exact hxr hm1
      · exact hxc (List.mem_singleton.mp hm2)

/-- Processing a finished dependency `c` shrinks the unfinished-filter by
exactly one occurrence (the dependency lists are duplicate-free). -/
theorem unfinished_append_mem (deps rids : List String) (c : String)
    (hnd : deps.Nodup) (hc : c ∈ deps) (hcr : c ∉ rids) :
    (deps.filter (fun d => !(rids.contains d))).length =
    (deps.filter (fun d => !((rids ++ [c]).contains d))).length + 1 := by
  induction deps with
  | nil => cases hc
  | cons d rest ih =>
      rw [List.nodup_cons] at hnd
      rw [List.filter_cons, List.filter_cons]
      by_cases hdc : d = c
      · have h1 : (!(rids.contains d)) = true := by
          rw [Bool.not_eq_true', contains_eq_false_iff, hdc]
          exact hcr
        have h2' : (!((rids ++ [c]).contains d)) = false := by
          rw [Bool.not_eq_false', contains_iff_mem, hdc]
          exact List.mem_append_right _ (List.mem_singleton.mpr rfl)
        rw [h1, h2']
        have hcrest : c ∉ rest := hdc ▸ hnd.1
        have hcong : rest.filter (fun x => !((rids ++ [c]).contains x)) =
            rest.filter (fun x => !(rids.contains x)) := by
          apply List.filter_congr
          intro x hx
          have hxc : ¬ x = c := fun h => hcrest (h ▸ hx)
          rw [not_contains_append_singleton hxc]
        rw [hcong]
        simp only [Bool.false_eq_true, if_false, if_true, List.length_cons]
      · have h2 : c ∈ rest := by
          rcases List.mem_cons.mp hc with h | h
          · exact absurd h.symm hdc
          · exact h
        have hsame : (!((rids ++ [c]).contains d)) = (!(rids.contains d)) := by
          rw [not_contains_append_singleton hdc]
        rw [hsame]
        have hrec := ih hnd.2 h2
        cases hb : (!(rids.contains d)) with
        | true =>
            simp only [if_true, List.length_cons]
            omega
        | false =>
            simp only [Bool.false_eq_true, if_false]
            exact hrec

/-- Processing a dependency not on the list leaves the filter alone. -/
theorem unfinished_append_not_mem (deps rids : List String) (c : String)
    (hc : c ∉ deps) :
    deps.filter (fun d => !((rids ++ [c]).contains d)) =
    deps.filter (fun d => !(rids.contains d)) := by
  apply List.filter_congr
  intro x hx
  have hxc : ¬ x = c := fun h => hc (h ▸ hx)
  rw [not_contains_append_singleton hxc]

theorem nodup_all_eq_singleton {l : List String} (hnd : l.Nodup)
    {c : String} (hc : c ∈ l) (hall : ∀ x ∈ l, x = c) : l = [c] := by
  cases l with
  | nil => cases hc
  | cons a rest =>
      have ha : a = c := hall a (List.mem_cons_self _ _)
      cases rest with
      | nil => rw [ha]
      | cons b r2 =>
          have hb : b = c := hall b
            (List.mem_cons_of_mem _ (List.mem_cons_self _ _))
          exact absurd (show a ∈ b :: r2 from by
              rw [ha, ← hb]
              exact List.mem_cons_self _ _)
            (List.nodup_cons.mp hnd).1

/-- Decomposing a one-element extension of a list. -/
theorem append_singleton_eq {α : Type} : ∀ (l : List α) (x : α)
    (pre : List α) (t : α) (post : List α),
    l ++ [x] = pre ++ t :: post →
    (pre = l ∧ t = x ∧ post = []) ∨
      (∃ post2, l = pre ++ t :: post2 ∧ post = post2 ++ [x]) := by
  intro l
  induction l with
  | nil =>
      intro x pre t post h
      cases pre with
      | nil =>
          rw [List.nil_append, List.nil_append] at h
          injection h with h1 h2
          exact Or.inl ⟨rfl, h1.symm, h2.symm⟩
      | cons p pre2 =>
          rw [List.nil_append] at h
          injection h with h1 h2
          cases pre2 with
          | nil => cases h2
          | cons q pre3 => cases h2
  | cons a l2 ih =>
      intro x pre t post h
      cases pre with
      | nil =>
          rw [List.nil_append, List.cons_append] at h
          injection h with h1 h2
          refine Or.inr ⟨l2, ?_, h2.symm⟩
          rw [List.nil_append, h1]
      | cons p pre2 =>
          rw [List.cons_append, List.cons_append] at h
          injection h with h1 h2
          rcases ih x pre2 t post h2 with ⟨hp, ht, hpost⟩ | ⟨post2, hl, hpost⟩
          · exact Or.inl ⟨by rw [hp, h1], ht, hpost⟩
          · exact Or.inr ⟨post2, by rw [List.cons_append, hl, h1], hpost⟩

theorem kahnStep_eq_kahnFold (tasks : DAG) (cid : String)
    (inDeg : List (String × Int)) (queue : List Task) :
    kahnStep tasks cid inDeg queue = kahnFold cid tasks (inDeg, queue) := rfl

theorem kahnFold_nil (cid : String)
    (acc : List (String × Int) × List Task) :
    kahnFold cid [] acc = acc := rfl

theorem kahnFold_cons (cid : String) (t : Task) (ts : List Task)
    (inDeg : List (String × Int)) (queue : List Task) :
    kahnFold cid (t :: ts) (inDeg, queue) =
      if t.dependsOn.contains cid then
        kahnFold cid ts (setDeg inDeg t.id (lookupDeg inDeg t.id - 1),
          if (lookupDeg inDeg t.id - 1) == 0 then queue ++ [t] else queue)
      else kahnFold cid ts (inDeg, queue) := by
  by_cases h : t.dependsOn.contains cid
  · show kahnFold cid ts _ = _
    dsimp only
    rw [if_pos h]
    rw [if_pos h]
  · show kahnFold cid ts _ = _
    dsimp only
    rw [if_neg h]
    rw [if_neg h]

/-- What one pass of the decrement fold does: every task listing the
finished ID among its dependencies loses exactly one in-degree (the Go
`break` stops after the first match), everything else keeps its count,
keys are stable, and exactly the tasks that reach zero are enqueued, in
task order. -/
theorem kahnFold_spec (cid : String) : ∀ (ts : List Task)
    (inDeg : List (String × Int)) (queue : List Task),
    (ts.map Task.id).Nodup →
    (∀ t ∈ ts, t.id ∈ inDeg.map Prod.fst) →
    ((kahnFold cid ts (inDeg, queue)).1.map Prod.fst =
        inDeg.map Prod.fst) ∧
    (∀ t ∈ ts, t.dependsOn.contains cid = true →
      lookupDeg (kahnFold cid ts (inDeg, queue)).1 t.id =
        lookupDeg inDeg t.id - 1) ∧
    (∀ t ∈ ts, t.dependsOn.contains cid = false →
      lookupDeg (kahnFold cid ts (inDeg, queue)).1 t.id =
        lookupDeg inDeg t.id) ∧
    (∀ id, id ∉ ts.map Task.id →
      lookupDeg (kahnFold cid ts (inDeg, queue)).1 id =
        lookupDeg inDeg id) ∧
    ((kahnFold cid ts (inDeg, queue)).2 = queue ++
      ts.filter (fun t => t.dependsOn.contains cid &&
        (lookupDeg inDeg t.id == 1))) := by
  intro ts
  induction ts with
  | nil =>
      intro inDeg queue _ _
      refine ⟨rfl, ?_, ?_, fun id _ => rfl, ?_⟩
      · intro t ht
        exact absurd ht (List.not_mem_nil t)
      · intro t ht
        exact absurd ht (List.not_mem_nil t)
      · rw [kahnFold_nil, List.filter_nil, List.append_nil]
  | cons t ts ih =>
      intro inDeg queue hnd hkeys
      rw [List.map_cons, List.nodup_cons] at hnd
      have htid : t.id ∉ ts.map Task.id := hnd.1
      have htk : t.id ∈ inDeg.map Prod.fst :=
        hkeys t (List.mem_cons_self _ _)
      by_cases hct : t.dependsOn.contains cid
      · rw [kahnFold_cons, if_pos hct]
        have hkeys2 : ∀ u ∈ ts, u.id ∈ (setDeg inDeg t.id
            (lookupDeg inDeg t.id - 1)).map Prod.fst := by
          intro u hu
          rw [setDeg_keys]
          exact hkeys u (List.mem_cons_of_mem _ hu)
        obtain ⟨hK, hdec, hsame, hframe, hq⟩ := ih
          (setDeg inDeg t.id (lookupDeg inDeg t.id - 1))
          (if (lookupDeg inDeg t.id - 1) == 0 then queue ++ [t] else queue)
          hnd.2 hkeys2
        refine ⟨?_, ?_, ?_, ?_, ?_⟩
        · rw [hK, setDeg_keys]
        · intro u hu hcu
          rcases List.mem_cons.mp hu with rfl | hu2
          · rw [hframe u.id htid, lookupDeg_setDeg_self _ _ _ htk]
          · have hne : ¬ u.id = t.id := fun h =>
              htid (h ▸ List.mem_map_of_mem Task.id hu2)
            rw [hdec u hu2 hcu, lookupDeg_setDeg_ne _ _ _ _ hne]
        · intro u hu hcu
          rcases List.mem_cons.mp hu with rfl | hu2
          · rw [hcu] at hct
            exact Bool.noConfusion hct
          · have hne : ¬ u.id = t.id := fun h =>
              htid (h ▸ List.mem_map_of_mem Task.id hu2)
            rw [hsame u hu2 hcu, lookupDeg_setDeg_ne _ _ _ _ hne]
        · intro id hid
          rw [List.map_cons] at hid
          have h1 : ¬ id = t.id := fun h =>
            hid (h ▸ List.mem_cons_self _ _)
          rw [hframe id (fun h => hid (List.mem_cons_of_mem _ h)),
            lookupDeg_setDeg_ne _ _ _ _ h1]
        · rw [hq]
          have hfe : ts.filter (fun u => u.dependsOn.contains cid &&
              (lookupDeg (setDeg inDeg t.id (lookupDeg inDeg t.id - 1))
                u.id == 1)) =
              ts.filter (fun u => u.dependsOn.contains cid &&
                (lookupDeg inDeg u.id == 1)) := by
            apply List.filter_congr
            intro u hu
            have hne : ¬ u.id = t.id := fun h =>
              htid (h ▸ List.mem_map_of_mem Task.id hu)
            rw [lookupDeg_setDeg_ne _ _ _ _ hne]
          rw [hfe, List.filter_cons]
          by_cases hb : ((lookupDeg inDeg t.id - 1) == 0) = true
          · rw [if_pos hb]
            have h1 : (lookupDeg inDeg t.id == 1) = true := by
              rw [beq_iff_eq] at hb ⊢
              omega
            have hpred : (t.dependsOn.contains cid &&
                (lookupDeg inDeg t.id == 1)) = true := by
              rw [hct, h1]
              rfl
            rw [hpred, if_pos rfl, List.append_assoc, List.singleton_append]
          · rw [if_neg hb]
            have h1 : (lookupDeg inDeg t.id == 1) = false := by
              rw [beq_eq_false_iff_ne]
              intro h
              apply hb
              rw [beq_iff_eq]
              omega
            have hpred : (t.dependsOn.contains cid &&
                (lookupDeg inDeg t.id == 1)) = false := by
              rw [h1, Bool.and_false]
            rw [hpred, if_neg Bool.false_ne_true]
      · rw [kahnFold_cons, if_neg hct]
        obtain ⟨hK, hdec, hsame, hframe, hq⟩ := ih inDeg queue hnd.2
          (fun u hu => hkeys u (List.mem_cons_of_mem _ hu))
        refine ⟨hK, ?_, ?_, ?_, ?_⟩
        · intro u hu hcu
          rcases List.mem_cons.mp hu with rfl | hu2
          · exact absurd hcu hct
          · exact hdec u hu2 hcu
        · intro u hu hcu
          rcases List.mem_cons.mp hu with rfl | hu2
          · exact hframe u.id htid
          · exact hsame u hu2 hcu
        · intro id hid
          rw [List.map_cons] at hid
          exact hframe id (fun h => hid (List.mem_cons_of_mem _ h))
        · rw [hq, List.filter_cons]
          have hpred : (t.dependsOn.contains cid &&
              (lookupDeg inDeg t.id == 1)) = false := by
            rw [bool_eq_false hct, Bool.false_and]
          rw [hpred, if_neg Bool.false_ne_true]

/-- If every member of a nonempty node list has a dependency successor
inside the list, the dependency graph is cyclic (pigeonhole on an
iterated successor). -/
theorem cyclic_of_all_have_succ (tasks : DAG) (V : List String)
    (v0 : String) (hv0 : v0 ∈ V)
    (hsucc : ∀ v ∈ V, ∃ w, w ∈ V ∧ depEdge tasks v w) :
    Cyclic tasks := by
  choose g hg1 hg2 using hsucc
  let F : {v // v ∈ V} → {v // v ∈ V} := fun p => ⟨g p.1 p.2, hg1 p.1 p.2⟩
  let seq : Nat → {v // v ∈ V} := fun n => F^[n] ⟨v0, hv0⟩
  have hstep : ∀ n, depEdge tasks (seq n).1 (seq (n + 1)).1 := by
    intro n
    have hit : seq (n + 1) = F (seq n) := Function.iterate_succ_apply' F n _
    rw [hit]
    exact hg2 _ _
  have hchain : ∀ i k,
      Relation.TransGen (depEdge tasks) (seq i).1 (seq (i + k + 1)).1 := by
    intro i k
    induction k with
    | zero => exact Relation.TransGen.single (hstep i)
    | succ k ihk =>
        have harith : i + (k + 1) + 1 = (i + k + 1) + 1 := by omega
        rw [harith]
        exact ihk.tail (hstep (i + k + 1))
  have hmaps : ∀ n ∈ Finset.range (V.length + 1),
      (fun m => (seq m).1) n ∈ V.toFinset := by
    intro n _
    exact List.mem_toFinset.mpr (seq n).2
  have hcard : V.toFinset.card < (Finset.range (V.length + 1)).card := by
    rw [Finset.card_range]
    exact Nat.lt_succ_of_le V.toFinset_card_le
  obtain ⟨i, hi, j, hj, hne, heq⟩ :=
    Finset.exists_ne_map_eq_of_card_lt_of_maps_to hcard hmaps
  rcases Nat.lt_or_ge i j with hij | hge
  · have hc := hchain i (j - i - 1)
    have harith : i + (j - i - 1) + 1 = j := by omega
    rw [harith] at hc
    exact ⟨(seq i).1, by rw [← heq] at hc; exact hc⟩
  · have hij : j < i := by
      rcases Nat.lt_or_ge j i with h | h
      · exact h
      · exact absurd (Nat.le_antisymm hge h).symm hne
    have hc := hchain j (i - j - 1)
    have harith : j + (i - j - 1) + 1 = i := by omega
    rw [harith] at hc
    exact ⟨(seq j).1, by rw [heq] at hc; exact hc⟩

theorem kahnLoop_zero (tasks : DAG) (queue : List Task)
    (inDeg : List (String × Int)) (result : List Task) :
    kahnLoop tasks 0 queue inDeg result = result := rfl

theorem kahnLoop_nil (tasks : DAG) (fuel : Nat)
    (inDeg : List (String × Int)) (result : List Task) :
    kahnLoop tasks (fuel + 1) [] inDeg result = result := rfl

theorem kahnLoop_cons (tasks : DAG) (fuel : Nat) (current : Task)
    (queueRest : List Task) (inDeg : List (String × Int))
    (result : List Task) :
    kahnLoop tasks (fuel + 1) (current :: queueRest) inDeg result =
      kahnLoop tasks fuel (kahnStep tasks current.id inDeg queueRest).2
        (kahnStep tasks current.id inDeg queueRest).1
        (result ++ [current]) := rfl

theorem bang_eq_true_iff {b : Bool} : ((!b) = true) ↔ b = false := by
  cases b
  · exact ⟨fun _ => rfl, fun _ => rfl⟩
  · exact ⟨fun h => Bool.noConfusion h, fun h => Bool.noConfusion h⟩

/-- With an empty queue and the invariant, every task has been emitted:
otherwise the unemitted tasks all keep an unemitted dependency, which
yields a cycle. -/
theorem kahn_complete (tasks : DAG) (hids : (tasks.map Task.id).Nodup)
    (hres : ∀ t ∈ tasks, ∀ d ∈ t.dependsOn, d ∈ tasks.map Task.id)
    (hacyc : ¬ Cyclic tasks)
    (inDeg : List (String × Int)) (result : List Task)
    (inv : KahnInv tasks inDeg [] result) :
    ∀ t ∈ tasks, t ∈ result := by
  by_contra hncomp
  push_neg at hncomp
  obtain ⟨t0, ht0, ht0r⟩ := hncomp
  apply hacyc
  apply cyclic_of_all_have_succ tasks
    ((tasks.filter
      (fun t => !((result.map Task.id).contains t.id))).map Task.id)
    t0.id ?_ ?_
  · apply List.mem_map_of_mem
    apply List.mem_filter.mpr
    refine ⟨ht0, ?_⟩
    rw [Bool.not_eq_true']
    apply contains_eq_false_iff.mpr
    intro hmem
    obtain ⟨r, hr, hrid⟩ := List.mem_map.mp hmem
    exact ht0r (id_inj hids (inv.res_mem r hr) ht0 hrid ▸ hr)
  · intro v hv
    obtain ⟨u, hu, huv⟩ := List.mem_map.mp hv
    have hu2 := List.mem_filter.mp hu
    have hunr : u.id ∉ result.map Task.id :=
      contains_eq_false_iff.mp (bang_eq_true_iff.mp hu2.2)
    have hur : u ∉ result := fun h =>
      hunr (List.mem_map_of_mem Task.id h)
    have hnall : ¬ ∀ d ∈ u.dependsOn, d ∈ result.map Task.id := by
      intro hall
      rcases (inv.closed u hu2.1).mpr hall with h | h
      · exact hur h
      · cases h
    push_neg at hnall
    obtain ⟨d, hd, hdnr⟩ := hnall
    obtain ⟨w, hw, hwid⟩ := List.mem_map.mp (hres u hu2.1 d hd)
    refine ⟨d, ?_, ⟨u, hu2.1, huv, hd⟩⟩
    apply List.mem_map.mpr
    refine ⟨w, List.mem_filter.mpr ⟨hw, ?_⟩, hwid⟩
    rw [Bool.not_eq_true']
    apply contains_eq_false_iff.mpr
    rw [hwid]
    exact hdnr

/-- The dequeue loop of `TopologicalOrder`, run with the stated fuel from
an invariant state of an acyclic resolvable graph, emits a permutation of
the tasks in which every task follows all its dependencies. -/
theorem kahnLoop_post (tasks : DAG)
    (hids : (tasks.map Task.id).Nodup)
    (hdnd : ∀ t ∈ tasks, t.dependsOn.Nodup)
    (hres : ∀ t ∈ tasks, ∀ d ∈ t.dependsOn, d ∈ tasks.map Task.id)
    (hacyc : ¬ Cyclic tasks) :
    ∀ (fuel : Nat) (queue : List Task) (inDeg : List (String × Int))
      (result : List Task),
    KahnInv tasks inDeg queue result →
    fuel + result.length = tasks.length + 1 →
    (kahnLoop tasks fuel queue inDeg result).Perm tasks ∧
    (∀ pre t post, kahnLoop tasks fuel queue inDeg result =
      pre ++ t :: post → ∀ d ∈ t.dependsOn, d ∈ pre.map Task.id) := by
  intro fuel
  induction fuel with
  | zero =>
      intro queue inDeg result inv hf
      exfalso
      have hsubset : (result ++ queue).map Task.id ⊆ tasks.map Task.id := by
        intro x hx
        obtain ⟨t, ht, rfl⟩ := List.mem_map.mp hx
        rcases List.mem_append.mp ht with h | h
        · exact List.mem_map_of_mem _ (inv.res_mem t h)
        · exact List.mem_map_of_mem _ (inv.que_mem t h)
      have hlen := (List.subperm_of_subset inv.nodup hsubset).length_le
      rw [List.length_map, List.length_map, List.length_append] at hlen
      omega
  | succ fuel ih =>
      intro queue inDeg result inv hf
      cases queue with
      | nil =>
          rw [kahnLoop_nil]
          have hcomp := kahn_complete tasks hids hres hacyc inDeg result inv
          have hnodup_r : result.Nodup := by
            have h1 : ((result ++ ([] : List Task)).map Task.id).Nodup :=
              inv.nodup
            rw [List.append_nil] at h1
            exact h1.of_map
          constructor
          · apply List.Subperm.antisymm
            · exact List.subperm_of_subset hnodup_r
                (fun t ht => inv.res_mem t ht)
            · exact List.subperm_of_subset hids.of_map
                (fun t ht => hcomp t ht)
          · exact inv.ordered
      | cons current queueRest =>
          rw [kahnLoop_cons, kahnStep_eq_kahnFold]
          have hcur_t : current ∈ tasks :=
            inv.que_mem current (List.mem_cons_self _ _)
          have hkeysm : ∀ t ∈ tasks, t.id ∈ inDeg.map Prod.fst := by
            intro t ht
            rw [inv.keys]
            exact List.mem_map_of_mem _ ht
          obtain ⟨hK, hdec, hsame, hframe, hq⟩ :=
            kahnFold_spec current.id tasks inDeg queueRest hids hkeysm
          have hrids_map : (result ++ [current]).map Task.id =
              result.map Task.id ++ [current.id] := by
            rw [List.map_append, List.map_singleton]
          have hnodup0 : (result.map Task.id ++
              current.id :: queueRest.map Task.id).Nodup := by
            have h1 := inv.nodup
            rw [List.map_append, List.map_cons] at h1
            exact h1
          have hnd_parts := List.nodup_append.mp hnodup0
          have hcid_nr : current.id ∉ result.map Task.id := fun h =>
            hnd_parts.2.2 h (List.mem_cons_self _ _)
          have hpe : ∀ e ∈ tasks, (e.dependsOn.contains current.id &&
              (lookupDeg inDeg e.id == 1)) = true →
              e.dependsOn.filter
                (fun d => !((result.map Task.id).contains d)) =
                [current.id] := by
            intro e he hp
            rw [Bool.and_eq_true] at hp
            have hc1 : current.id ∈ e.dependsOn :=
              contains_iff_mem.mp hp.1
            have hc2 : lookupDeg inDeg e.id = 1 := beq_iff_eq.mp hp.2
            have hdeg := inv.deg e he
            rw [hc2] at hdeg
            have hlen : (e.dependsOn.filter
                (fun d => !((result.map Task.id).contains d))).length = 1 := by
              omega
            have hcf : current.id ∈ e.dependsOn.filter
                (fun d => !((result.map Task.id).contains d)) := by
              apply List.mem_filter.mpr
              refine ⟨hc1, ?_⟩
              rw [Bool.not_eq_true']
              exact contains_eq_false_iff.mpr hcid_nr
            obtain ⟨a, ha⟩ := List.length_eq_one.mp hlen
            rw [ha] at hcf ⊢
            rw [← List.mem_singleton.mp hcf]
          have hpe2 : ∀ e ∈ tasks, (e.dependsOn.contains current.id &&
              (lookupDeg inDeg e.id == 1)) = true →
              ∀ d ∈ e.dependsOn, d ∈ result.map Task.id ++ [current.id] := by
            intro e he hp d hd
            by_cases hdr : d ∈ result.map Task.id
            · exact List.mem_append_left _ hdr
            · have : d ∈ e.dependsOn.filter
                  (fun d => !((result.map Task.id).contains d)) := by
                apply List.mem_filter.mpr
                refine ⟨hd, ?_⟩
                rw [Bool.not_eq_true']
                exact contains_eq_false_iff.mpr hdr
              rw [hpe e he hp] at this
              rw [List.mem_singleton.mp this]
              exact List.mem_append_right _ (List.mem_singleton.mpr rfl)
          have hpe3 : ∀ e ∈ tasks, (e.dependsOn.contains current.id &&
              (lookupDeg inDeg e.id == 1)) = true →
              e ∉ result ∧ ¬ e = current ∧ e ∉ queueRest := by
            intro e he hp
            rw [Bool.and_eq_true] at hp
            have hc1 : current.id ∈ e.dependsOn :=
              contains_iff_mem.mp hp.1
            have hnotin : ¬ (e ∈ result ∨ e ∈ current :: queueRest) := by
              intro hor
              exact hcid_nr ((inv.closed e he).mp hor current.id hc1)
            refine ⟨fun h => hnotin (Or.inl h), ?_, ?_⟩
            · intro h
              exact hnotin (Or.inr (h ▸ List.mem_cons_self _ _))
            · intro h
              exact hnotin (Or.inr (List.mem_cons_of_mem _ h))
          have hpe4 : ∀ t ∈ tasks,
              (∀ d ∈ t.dependsOn, d ∈ result.map Task.id ++ [current.id]) →
              (∃ d0 ∈ t.dependsOn, d0 ∉ result.map Task.id) →
              (t.dependsOn.contains current.id &&
                (lookupDeg inDeg t.id == 1)) = true := by
            intro t ht hall hex
            obtain ⟨d0, hd0, hd0n⟩ := hex
            have hd0c : d0 = current.id := by
              rcases List.mem_append.mp (hall d0 hd0) with h | h
              · exact absurd h hd0n
              · exact List.mem_singleton.mp h
            have hc1 : current.id ∈ t.dependsOn := hd0c ▸ hd0
            have hsing : t.dependsOn.filter
                (fun d => !((result.map Task.id).contains d)) =
                [current.id] := by
              apply nodup_all_eq_singleton
              · exact (hdnd t ht).filter _
              · apply List.mem_filter.mpr
                refine ⟨hc1, ?_⟩
                rw [Bool.not_eq_true']
                exact contains_eq_false_iff.mpr hcid_nr
              · intro x hx
                have hx2 := List.mem_filter.mp hx
                have hxn : x ∉ result.map Task.id :=
                  contains_eq_false_iff.mp (bang_eq_true_iff.mp hx2.2)
                rcases List.mem_append.mp (hall x hx2.1) with h | h
                · exact absurd h hxn
                · exact List.mem_singleton.mp h
            rw [Bool.and_eq_true]
            refine ⟨contains_iff_mem.mpr hc1, ?_⟩
            rw [beq_iff_eq, inv.deg t ht, hsing]
            rfl
          have hinv2 : KahnInv tasks
              (kahnFold current.id tasks (inDeg, queueRest)).1
              (kahnFold current.id tasks (inDeg, queueRest)).2
              (result ++ [current]) := by
            refine ⟨?_, ?_, ?_, ?_, ?_, ?_, ?_⟩
            · rw [hK, inv.keys]
            · intro t ht
              rw [hrids_map]
              by_cases hct : t.dependsOn.contains current.id
              · rw [hdec t ht hct, inv.deg t ht]
                have hlem := unfinished_append_mem t.dependsOn
                  (result.map Task.id) current.id (hdnd t ht)
                  (contains_iff_mem.mp hct) hcid_nr
                omega
              · rw [hsame t ht (bool_eq_false hct), inv.deg t ht,
                  unfinished_append_not_mem t.dependsOn
                    (result.map Task.id) current.id
                    (contains_eq_false_iff.mp (bool_eq_false hct))]
            · intro t ht
              rcases List.mem_append.mp ht with h | h
              · exact inv.res_mem t h
              · rw [List.mem_singleton.mp h]
                exact hcur_t
            · intro t ht
              rw [hq] at ht
              rcases List.mem_append.mp ht with h | h
              · exact inv.que_mem t (List.mem_cons_of_mem _ h)
              · exact (List.mem_filter.mp h).1
            · rw [hq]
              have hlist : (result ++ [current]) ++
                  (queueRest ++ tasks.filter
                    (fun t => t.dependsOn.contains current.id &&
                      (lookupDeg inDeg t.id == 1))) =
                  (result ++ current :: queueRest) ++ tasks.filter
                    (fun t => t.dependsOn.contains current.id &&
                      (lookupDeg inDeg t.id == 1)) := by
                rw [← List.append_assoc, List.append_assoc result [current]
                  queueRest, List.singleton_append]
              rw [hlist, List.map_append]
              apply List.nodup_append.mpr
              refine ⟨inv.nodup, ?_, ?_⟩
              · exact ((List.filter_sublist tasks).map Task.id).nodup hids
              · intro x hx hx2
                obtain ⟨u, hu, huid⟩ := List.mem_map.mp hx
                obtain ⟨e, hee, heid⟩ := List.mem_map.mp hx2
                have he2 := List.mem_filter.mp hee
                have hue : u = e := id_inj hids
                  (by
                    rcases List.mem_append.mp hu with h | h
                    · exact inv.res_mem u h
                    · rcases List.mem_cons.mp h with rfl | h2
                      · exact hcur_t
                      · exact inv.que_mem u (List.mem_cons_of_mem _ h2))
                  he2.1 (by rw [huid, heid])
                obtain ⟨hn1, hn2, hn3⟩ := hpe3 e he2.1 he2.2
                rcases List.mem_append.mp hu with h | h
                · exact hn1 (hue ▸ h)
                · rcases List.mem_cons.mp h with h2 | h2
                  · exact hn2 (hue ▸ h2)
                  · exact hn3 (hue ▸ h2)
            · intro t ht
              rw [hrids_map]
              constructor
              · intro hor d hd
                rcases hor with hr' | hq'
                · rcases List.mem_append.mp hr' with hr | hc
                  · exact List.mem_append_left _
                      ((inv.closed t ht).mp (Or.inl hr) d hd)
                  · have hteq : t = current := List.mem_singleton.mp hc
                    apply List.mem_append_left
                    apply (inv.closed current hcur_t).mp
                      (Or.inr (List.mem_cons_self _ _))
                    rw [← hteq]
                    exact hd
                · rw [hq] at hq'
                  rcases List.mem_append.mp hq' with hqr | henq
                  · exact List.mem_append_left _ ((inv.closed t ht).mp
                      (Or.inr (List.mem_cons_of_mem _ hqr)) d hd)
                  · have hf2 := List.mem_filter.mp henq
                    exact hpe2 t ht hf2.2 d hd
              · intro hall
                by_cases hallr : ∀ d ∈ t.dependsOn, d ∈ result.map Task.id
                · rcases (inv.closed t ht).mpr hallr with hr | hqm
                  · exact Or.inl (List.mem_append_left _ hr)
                  · rcases List.mem_cons.mp hqm with rfl | hq2
                    · exact Or.inl (List.mem_append_right _
                        (List.mem_singleton.mpr rfl))
                    · refine Or.inr ?_
                      rw [hq]
                      exact List.mem_append_left _ hq2
                · push_neg at hallr
                  have hpred := hpe4 t ht hall hallr
                  refine Or.inr ?_
                  rw [hq]
                  exact List.mem_append_right _
                    (List.mem_filter.mpr ⟨ht, hpred⟩)
            · intro pre u post heq d hd
              rcases append_singleton_eq result current pre u post heq with
                ⟨hp, hu, hpost⟩ | ⟨post2, hl, hpost⟩
              · rw [hp]
                apply (inv.closed current hcur_t).mp
                  (Or.inr (List.mem_cons_self _ _))
                rw [← hu]
                exact hd
              · exact inv.ordered pre u post2 hl d hd
          apply ih _ _ _ hinv2
          rw [List.length_append, List.length_singleton]
          omega

/-- IDs of the initial queue form a sublist of the in-degree keys. -/
theorem initQueue_ids_sublist (tasks : DAG) :
    ∀ inDeg : List (String × Int),
    List.Sublist ((initQueue tasks inDeg).map Task.id)
      (inDeg.map Prod.fst) := by
  intro inDeg
  induction inDeg with
  | nil => exact List.Sublist.refl _
  | cons p rest ih =>
      show List.Sublist ((List.filterMap _ (p :: rest)).map Task.id) _
      rw [List.filterMap_cons]
      by_cases hz : (p.2 == 0) = true
      · rw [if_pos hz]
        cases hft : findTask tasks p.1 with
        | none =>
            exact List.Sublist.cons _ ih
        | some t =>
            rw [List.map_cons, findTask_id hft]
            exact List.Sublist.cons₂ _ ih
      · rw [if_neg hz]
        exact List.Sublist.cons _ ih

/-- The initial state of the dequeue loop satisfies the invariant. -/
theorem KahnInv_init (tasks : DAG) (hids : (tasks.map Task.id).Nodup) :
    KahnInv tasks (initInDegree tasks)
      (initQueue tasks (initInDegree tasks)) [] := by
  refine ⟨initInDegree_keys tasks, ?_, ?_, ?_, ?_, ?_, ?_⟩
  · intro t ht
    rw [lookupDeg_init tasks hids ht]
    have hfe : t.dependsOn.filter
        (fun d => !(((List.map Task.id ([] : List Task)).contains d))) =
        t.dependsOn := by
      apply List.filter_eq_self.mpr
      intro a _
      rfl
    rw [hfe]
  · intro t ht
    cases ht
  · intro t ht
    obtain ⟨p, hp, hpt⟩ := List.mem_filterMap.mp ht
    by_cases hz : (p.2 == 0) = true
    · rw [if_pos hz] at hpt
      exact findTask_mem hpt
    · rw [if_neg hz] at hpt
      cases hpt
  · rw [List.nil_append]
    exact ((initQueue_ids_sublist tasks (initInDegree tasks)).trans
      (by rw [initInDegree_keys])).nodup hids
  · intro t ht
    constructor
    · intro hor d hd
      rcases hor with h | h
      · cases h
      · obtain ⟨p, hp, hpt⟩ := List.mem_filterMap.mp h
        obtain ⟨u, hu, hpu⟩ := List.mem_map.mp hp
        by_cases hz : (p.2 == 0) = true
        · rw [if_pos hz] at hpt
          have htu : t = u := by
            have h1 := findTask_of_mem hids hu
            rw [← hpu] at hpt
            rw [show ((u.id, (u.dependsOn.length : Int)).1) = u.id from rfl,
              h1] at hpt
            exact (Option.some.inj hpt).symm
          have hdeps : u.dependsOn = [] := by
            have h2 : ((u.dependsOn.length : Int) == 0) = true := by
              rw [← hpu] at hz
              exact hz
            rw [beq_iff_eq] at h2
            have : u.dependsOn.length = 0 := by omega
            exact List.length_eq_zero.mp this
          rw [htu, hdeps] at hd
          cases hd
        · rw [if_neg hz] at hpt
          cases hpt
    · intro hall
      have hdeps : t.dependsOn = [] := by
        apply List.eq_nil_iff_forall_not_mem.mpr
        intro d hd
        exact absurd (hall d hd) (List.not_mem_nil d)
      refine Or.inr (List.mem_filterMap.mpr
        ⟨(t.id, (t.dependsOn.length : Int)),
          List.mem_map_of_mem _ ht, ?_⟩)
      have hz : ((t.dependsOn.length : Int) == 0) = true := by
        rw [hdeps]
        decide
      rw [if_pos hz]
      exact findTask_of_mem hids ht
  · intro pre u post heq
    cases pre with
    | nil => cases heq
    | cons p pre2 => cases heq

/-- `C1` (amended): with unique task IDs, duplicate-free dependency
lists, and every dependency resolving in the graph, `HasCycle` returns
`true` on cyclic graphs (and `TopologicalOrder` errors), while on
acyclic graphs `HasCycle` returns `false` and `TopologicalOrder` emits a
permutation of the tasks in which every task appears strictly after each
of its dependencies. -/
theorem C1_hasCycle_topologicalOrder (tasks : DAG)
    (hids : (tasks.map Task.id).Nodup)
    (hdnd : ∀ t ∈ tasks, t.dependsOn.Nodup)
    (hres : ∀ t ∈ tasks, ∀ d ∈ t.dependsOn, d ∈ tasks.map Task.id) :
    (Cyclic tasks → hasCycle tasks = true ∧
      topologicalOrder tasks = .error "cycle detected in DAG") ∧
    (¬ Cyclic tasks → hasCycle tasks = false ∧
      ∃ π, topologicalOrder tasks = .ok π ∧ π.Perm tasks ∧
        ∀ pre t post, π = pre ++ t :: post →
          ∀ d ∈ t.dependsOn, d ∈ pre.map Task.id) := by
  constructor
  · intro hcyc
    have h1 : hasCycle tasks = true :=
      (hasCycle_iff_cyclic tasks hids).mpr hcyc
    refine ⟨h1, ?_⟩
    simp only [topologicalOrder]
    rw [if_pos h1]
  · intro hacyc
    have h1 : hasCycle tasks = false := by
      cases hc : hasCycle tasks with
      | false => rfl
      | true => exact absurd ((hasCycle_iff_cyclic tasks hids).mp hc) hacyc
    refine ⟨h1, ?_⟩
    have hpost := kahnLoop_post tasks hids hdnd hres hacyc
      (tasks.length + 1) (initQueue tasks (initInDegree tasks))
      (initInDegree tasks) [] (KahnInv_init tasks hids) (by simp)
    refine ⟨kahnLoop tasks (tasks.length + 1)
      (initQueue tasks (initInDegree tasks)) (initInDegree tasks) [],
      ?_, hpost.1, hpost.2⟩
    simp only [topologicalOrder]
    rw [if_neg (by rw [h1]; exact Bool.noConfusion)]

theorem ceTasks_edges : ∀ u v, depEdge ceTasks u v →
    u = "b" ∧ v = "a" := by
  intro u v h
  obtain ⟨t, ht, htid, hdep⟩ := h
  rcases List.mem_cons.mp ht with rfl | ht2
  · exact absurd hdep (List.not_mem_nil v)
  · rcases List.mem_cons.mp ht2 with rfl | ht3
    · refine ⟨by rw [← htid]; rfl, ?_⟩
      rcases List.mem_cons.mp hdep with h1 | h2
      · exact h1
      · rcases List.mem_cons.mp h2 with h3 | h4
        · exact h3
        · exact absurd h4 (List.not_mem_nil v)
    · cases ht3

theorem ceTasks_not_cyclic : ¬ Cyclic ceTasks := by
  intro hcyc
  obtain ⟨x, hx⟩ := hcyc
  obtain ⟨z, hz⟩ := transGen_first_edge hx
  have hxb : x = "b" := (ceTasks_edges x z hz).1
  subst hxb
  cases hx with
  | single h => exact absurd (ceTasks_edges _ _ h).2 (by decide)
  | tail h1 h2 => exact absurd (ceTasks_edges _ _ h2).2 (by decide)

/-- `C1` counterexample: in a two-task graph where every dependency ID
resolves and no directed cycle exists, a duplicated entry in a
`dependsOn` list makes `TopologicalOrder` silently drop the dependent
task — the result is not a permutation of the tasks — while `HasCycle`
still reports `false`. -/
theorem C1_duplicate_dependency_counterexample :
    (∀ t ∈ ceTasks, ∀ d ∈ t.dependsOn, d ∈ ceTasks.map Task.id) ∧
    (¬ Cyclic ceTasks) ∧
    hasCycle ceTasks = false ∧
    topologicalOrder ceTasks = .ok [ceA] ∧
    (∀ π, topologicalOrder ceTasks = .ok π → ¬ π.Perm ceTasks) := by
  refine ⟨by decide, ceTasks_not_cyclic, by decide, rfl, ?_⟩
  intro π h hperm
  have h4 : topologicalOrder ceTasks = .ok [ceA] := rfl
  rw [h4] at h
  have hpi : π = [ceA] := (Except.ok.inj h).symm
  subst hpi
  exact absurd hperm.length_eq (by decide)

theorem wTasks_edges : ∀ u v, depEdge wTasks u v →
    u = "b" ∧ v = "a" := by
  intro u v h
  obtain ⟨t, ht, htid, hdep⟩ := h
  rcases List.mem_cons.mp ht with rfl | ht2
  · exact absurd hdep (List.not_mem_nil v)
  · rcases List.mem_cons.mp ht2 with rfl | ht3
    · refine ⟨by rw [← htid]; rfl, ?_⟩
      rcases List.mem_cons.mp hdep with h1 | h2
      · exact h1
      · exact absurd h2 (List.not_mem_nil v)
    · cases ht3

theorem wTasks_not_cyclic : ¬ Cyclic wTasks := by
  intro hcyc
  obtain ⟨x, hx⟩ := hcyc
  obtain ⟨z, hz⟩ := transGen_first_edge hx
  have hxb : x = "b" := (wTasks_edges x z hz).1
  subst hxb
  cases hx with
  | single h => exact absurd (wTasks_edges _ _ h).2 (by decide)
  | tail h1 h2 => exact absurd (wTasks_edges _ _ h2).2 (by decide)

theorem C1_hasCycle_topologicalOrder_witness :
    hasCycle wTasks = false ∧
    ∃ π, topologicalOrder wTasks = .ok π ∧ π.Perm wTasks ∧
      ∀ pre t post, π = pre ++ t :: post →
        ∀ d ∈ t.dependsOn, d ∈ pre.map Task.id :=
  (C1_hasCycle_topologicalOrder wTasks (by decide) (by decide)
    (by decide)).2 wTasks_not_cyclic

end Spec2Proof
